import Mathlib

/-!
Formal model of the reactive dependency-tracking engine of the vue-book
repository.  The definitions below are a shallow embedding of the source
files

  src/响应式/非原始值的响应式方案/5.7.1 数组的索引与 length.js
    (createReactive with its get / set / has / ownKeys / deleteProperty
     traps, track, trigger, effect, cleanup)

  src/响应式/调度执行.js
    (jobQueue, isFlushing, flushJob and the batching scheduler option)

Raw targets, the dependency bucket, the effect stack and the scheduler
state are explicit components of one machine state.  Effect bodies are
programs in a small command language whose statements are exactly the
operations the proxied views intercept (property read, write, `in` test,
key enumeration, delete, and a branch on a read value).  The interpreter
uses a fuel parameter: effects re-running effects is the only source of
unbounded recursion, and every re-entry consumes one unit of fuel.
-/

namespace VueBook

/-! ## JavaScript keys and values -/

/-- A JavaScript property key as seen by a proxy trap: a string or a
symbol.  `ITERATE_KEY` is modelled as symbol number 0. -/
inductive JSKey where
  | str : String → JSKey
  | sym : Nat → JSKey
deriving DecidableEq, Repr

/-- The reserved structural key `const ITERATE_KEY = Symbol()`. -/
def ITERATE_KEY : JSKey := JSKey.sym 0

/-- JavaScript values appearing in the demos: numbers are modelled as
integers plus a single distinguished not-a-number value, and objects are
references into the machine heap.  Equality of `JSValue` is same-value
equality treating the not-a-number value as equal to itself. -/
inductive JSValue where
  | undef : JSValue
  | nan : JSValue
  | num : Int → JSValue
  | str : String → JSValue
  | boolean : Bool → JSValue
  | obj : Nat → JSValue
deriving DecidableEq, Repr

/-- JavaScript strict equality `===` on modelled values: structural
equality except that the not-a-number value is unequal to itself. -/
def strictEq : JSValue → JSValue → Bool
  | JSValue.nan, _ => false
  | _, JSValue.nan => false
  | a, b => decide (a = b)

/-- JavaScript truthiness of a modelled value. -/
def truthy : JSValue → Bool
  | JSValue.undef => false
  | JSValue.nan => false
  | JSValue.num n => n ≠ 0
  | JSValue.str s => s ≠ ""
  | JSValue.boolean b => b
  | JSValue.obj _ => true

/-- Read a run of decimal digits, most significant first, failing on any
other character. -/
def goDigits : List Char → Nat → Option Nat
  | [], acc => some acc
  | c :: cs, acc =>
      if c.isDigit then goDigits cs (acc * 10 + (c.toNat - 48)) else none

/-- Parse a nonempty list of decimal digits. -/
def parseDigitList (l : List Char) : Option Nat :=
  if l = [] then none else goDigits l 0

/-- The conversion `Number(s)` for the strings this code applies it to: the empty string
converts to 0, strings of decimal digits (optionally with a leading minus
sign) convert to their value, anything else to not-a-number (`none`).
(Fractional, spaced, hexadecimal and other exotic numeric strings do not
occur as keys or length values in this repository.) -/
def strToNum (s : String) : Option Int :=
  match s.data with
  | [] => some 0
  | '-' :: rest => (parseDigitList rest).map (fun n => -(n : Int))
  | l => (parseDigitList l).map (fun n => (n : Int))

/-- The conversion `ToNumber` on a modelled value (`none` is not-a-number). -/
def toNum : JSValue → Option Int
  | JSValue.undef => none
  | JSValue.nan => none
  | JSValue.num n => some n
  | JSValue.str s => strToNum s
  | JSValue.boolean b => some (if b then 1 else 0)
  | JSValue.obj _ => none

/-- A canonical array index carried by a key, when there is one. -/
def keyIndex : JSKey → Option Nat
  | JSKey.str s => (strToNum s).bind (fun n => if n < 0 then none else some n.toNat)
  | JSKey.sym _ => none

/-- The comparison `key >= newVal` from the length branch of `trigger`,
where `key` is a key of the dependency map.  Applying a relational
operator to a symbol throws a TypeError in JavaScript (symbols cannot be
converted to numbers); this is modelled by `Except.error`.  For a string
key the comparison is numeric (string against string compares
lexicographically), and any not-a-number operand makes it false. -/
def keyGE : JSKey → JSValue → Except Unit Bool
  | JSKey.sym _, _ => Except.error ()
  | JSKey.str s, JSValue.str s' => Except.ok (decide (s' ≤ s))
  | JSKey.str s, v =>
      match strToNum s, toNum v with
      | some a, some b => Except.ok (decide (b ≤ a))
      | _, _ => Except.ok false

/-! ## Raw targets -/

/-- The classification computed by the set trap. -/
inductive OpType where
  | setOp : OpType
  | addOp : OpType
  | deleteOp : OpType
deriving DecidableEq, Repr

/-- Association-list lookup (first match). -/
def alookup {α β : Type} [DecidableEq α] : List (α × β) → α → Option β
  | [], _ => none
  | (a, b) :: rest, x => if a = x then some b else alookup rest x

/-- Association-list update of the first entry for `x`, appending a new
entry built from `dflt` when none exists.  An existing entry keeps its
position, matching insertion-order semantics of a JavaScript `Map`. -/
def aupdate {α β : Type} [DecidableEq α] (l : List (α × β)) (x : α) (f : β → β)
    (dflt : β) : List (α × β) :=
  match l with
  | [] => [(x, f dflt)]
  | (a, b) :: rest =>
      if a = x then (a, f b) :: rest else (a, b) :: aupdate rest x f dflt

/-- A raw target: a plain object or array.  For arrays, `len` is the
`length` property and `fields` holds the index and other own properties
(`length` itself is never stored in `fields`). -/
structure RawObj where
  isArr : Bool
  fields : List (JSKey × JSValue)
  len : Nat
deriving DecidableEq, Repr

/-- The plain property read `target[key]` on a raw target (no trap). -/
def rawGet (o : RawObj) (k : JSKey) : JSValue :=
  if o.isArr ∧ k = JSKey.str "length" then JSValue.num o.len
  else (alookup o.fields k).getD JSValue.undef

/-- The test `Object.prototype.hasOwnProperty.call(target, key)`. -/
def rawHasOwn (o : RawObj) (k : JSKey) : Bool :=
  (o.isArr && k == JSKey.str "length") || (alookup o.fields k).isSome

/-- The underlying assignment performed by `Reflect.set`: array `length`
assignment removes every index property at or beyond the new length;
assigning an index at or beyond the length of an array grows it. -/
def rawSet (o : RawObj) (k : JSKey) (v : JSValue) : RawObj :=
  if o.isArr ∧ k = JSKey.str "length" then
    let n := ((toNum v).getD 0).toNat
    { o with
      len := n
      fields := o.fields.filter (fun kv =>
        match keyIndex kv.1 with
        | some i => decide (i < n)
        | none => true) }
  else if o.isArr then
    match keyIndex k with
    | some i =>
        { o with fields := aupdate o.fields k (fun _ => v) JSValue.undef,
                 len := max o.len (i + 1) }
    | none => { o with fields := aupdate o.fields k (fun _ => v) JSValue.undef }
  else { o with fields := aupdate o.fields k (fun _ => v) JSValue.undef }

/-- The primitive `Reflect.deleteProperty`: removing the `length` property of an array
fails; any other delete removes the field and succeeds. -/
def rawDelete (o : RawObj) (k : JSKey) : RawObj × Bool :=
  if o.isArr ∧ k = JSKey.str "length" then (o, false)
  else ({ o with fields := o.fields.filter (fun kv => kv.1 ≠ k) }, true)

/-- The classification in the set trap:
`Array.isArray(target) ? (Number(key) < target.length ? SET : ADD)
: (hasOwnProperty(target,key) ? SET : ADD)`.
On an array target, `Number(key)` applied to a symbol key throws a
TypeError, modelled by `Except.error`. -/
def classify (o : RawObj) (k : JSKey) : Except Unit OpType :=
  if o.isArr then
    match k with
    | JSKey.sym _ => Except.error ()
    | JSKey.str s =>
        match strToNum s with
        | some n => Except.ok (if n < (o.len : Int) then OpType.setOp else OpType.addOp)
        | none => Except.ok OpType.addOp
  else Except.ok (if rawHasOwn o k then OpType.setOp else OpType.addOp)

/-- The guard on the notification in the set trap:
`oldVal !== newVal && (oldVal === oldVal || newVal === newVal)`. -/
def setGuard (oldVal newVal : JSValue) : Bool :=
  !strictEq oldVal newVal && (strictEq oldVal oldVal || strictEq newVal newVal)

/-! ## Views, effect bodies and machine state -/

/-- A reactive view produced by `createReactive(obj, isShallow, isReadonly)`:
an intercepting facade over the raw target with index `tid`. -/
structure View where
  tid : Nat
  isShallow : Bool
  isReadonly : Bool
deriving DecidableEq, Repr

/-- An effect body: a straight-line program over the trapped operations.
`readK` is a property read (`view[key]`), `writeK` an assignment of a
constant value, `hasK` an `in` test, `iterK` a `for...in` style key
enumeration, `delK` a `delete`, and `branch` reads a key and branches on
the truthiness of the value obtained. -/
inductive Prog where
  | skip : Prog
  | seq : Prog → Prog → Prog
  | readK : View → JSKey → Prog
  | writeK : View → JSKey → JSValue → Prog
  | hasK : View → JSKey → Prog
  | iterK : View → Prog
  | delK : View → JSKey → Prog
  | branch : View → JSKey → Prog → Prog → Prog
deriving DecidableEq, Repr

/-- A registered effect: the wrapped body, whether `options.scheduler` is
set (to the batching scheduler of the scheduler file), whether
`options.lazy` is set, and the `effectFn.deps` list of the dependency
sets the effect was added to.  A set is identified by its address
`(target, key)` in the bucket. -/
structure EffectObj where
  body : Prog
  hasSched : Bool
  lazyFlag : Bool
  deps : List (Nat × JSKey)
deriving DecidableEq, Repr

/-- The default effect object used for out-of-range effect ids. -/
def defaultEffect : EffectObj := ⟨Prog.skip, false, false, []⟩

/-- The whole machine state.

* `heap` — the raw targets (index = target id).
* `effs` — the registered effects (index = effect id).
* `bucket` — the dependency store: target id to key to effect-id set.
  Entries keep insertion order, as JavaScript `Map` and `Set` do.
* `stack` — the `effectStack`, head = top; `activeEffect` is the top.
* `jobQueue`, `isFlushing`, `flushPending` — the batching scheduler:
  the deduplicating pending set, the guard flag, and whether the
  deferred flush callback is sitting in the microtask queue.
* `execLog` — instrumentation: effect ids in the order their runs began.
* `trace` — instrumentation: every `(effect, target, key)` recorded by
  `track`, in order.
* `warns` — number of warnings printed for rejected read-only writes. -/
structure St where
  heap : List RawObj
  effs : List EffectObj
  bucket : List (Nat × List (JSKey × List Nat))
  stack : List Nat
  jobQueue : List Nat
  isFlushing : Bool
  flushPending : Bool
  execLog : List Nat
  trace : List (Nat × Nat × JSKey)
  warns : Nat
deriving DecidableEq, Repr

/-- The raw target with a given id (a default for out-of-range ids). -/
def heapAt (st : St) (t : Nat) : RawObj := st.heap.getD t ⟨false, [], 0⟩

/-- The effect object with a given id. -/
def effAt (st : St) (e : Nat) : EffectObj := st.effs.getD e defaultEffect

/-- The variable `activeEffect`: the effect currently executing, i.e. the top of the
effect stack. -/
def activeEffect (st : St) : Option Nat := st.stack.head?

/-- The dependency set stored in the bucket under `(t, k)`. -/
def bucketSet (st : St) (t : Nat) (k : JSKey) : List Nat :=
  ((alookup st.bucket t).bind (fun dm => alookup dm k)).getD []

/-- Replace the raw target `t` in the heap. -/
def setHeap (st : St) (t : Nat) (o : RawObj) : St :=
  { st with heap := st.heap.set t o }

/-- Update the effect object `e`. -/
def setEff (st : St) (e : Nat) (f : EffectObj → EffectObj) : St :=
  { st with effs := st.effs.set e (f (effAt st e)) }

/-! ## track and cleanup -/

/-- Add an element to a JavaScript `Set` modelled as an insertion-ordered
duplicate-free list. -/
def setAdd (l : List Nat) (e : Nat) : List Nat :=
  if e ∈ l then l else l ++ [e]

/-- The function `track(target, key)`: when an effect is active, ensure the
`target → key → set` path exists in the bucket, add the active effect to
the set, and push that set (by address) onto `activeEffect.deps`. -/
def track (st : St) (t : Nat) (k : JSKey) : St :=
  match activeEffect st with
  | none => st
  | some e =>
      let st := { st with
        bucket := aupdate st.bucket t
          (fun dm => aupdate dm k (fun s => setAdd s e) []) [] }
      let st := setEff st e (fun eo => { eo with deps := eo.deps ++ [(t, k)] })
      { st with trace := st.trace ++ [(e, t, k)] }

/-- Remove an effect id from one dependency set in the bucket. -/
def bucketRemove (st : St) (t : Nat) (k : JSKey) (e : Nat) : St :=
  { st with
    bucket := aupdate st.bucket t
      (fun dm => aupdate dm k (fun s => s.filter (fun x => x ≠ e)) []) [] }

/-- The function `cleanup(effectFn)`: delete the effect from every dependency set in
its `deps` list, then empty the list. -/
def cleanup (st : St) (e : Nat) : St :=
  let st := (effAt st e).deps.foldl (fun acc pr => bucketRemove acc pr.1 pr.2 e) st
  setEff st e (fun eo => { eo with deps := [] })

/-! ## Building the notify set -/

/-- Whether `trigger` keeps a subscriber: `effectFn !== activeEffect`. -/
def keepEff (st : St) (e : Nat) : Bool := activeEffect st ≠ some e

/-- Fold a subscriber list into the ordered, deduplicated `effectsToRun`
set, dropping the active effect. -/
def addToRun (st : St) (acc : List Nat) (l : List Nat) : List Nat :=
  l.foldl (fun acc e => if keepEff st e ∧ e ∉ acc then acc ++ [e] else acc) acc

/-- The length branch of `trigger`: iterate over all entries of the
dependency map of the target, and for every key comparing `>=` to the
newly assigned length value collect the subscribers.  The comparison
throws when it reaches a symbol key. -/
def lengthScan (st : St) (dm : List (JSKey × List Nat)) (nv : JSValue)
    (acc : List Nat) : Except Unit (List Nat) :=
  match dm with
  | [] => Except.ok acc
  | (k, s) :: rest =>
      match keyGE k nv with
      | Except.error u => Except.error u
      | Except.ok b =>
          lengthScan st rest nv (if b then addToRun st acc s else acc)

/-- The `effectsToRun` set assembled by `trigger(target, key, type,
newVal)` before anything is executed:

1. the subscribers of `(target, key)`, minus the active effect;
2. for ADD and DELETE, the subscribers of `ITERATE_KEY`;
3. for ADD on an array, the subscribers of `length`;
4. for `length` on an array, the subscribers of every key `>=` the new
   value — a scan that throws a TypeError when the map holds a symbol
   key. -/
def buildToRun (st : St) (t : Nat) (k : JSKey) (ty : OpType) (nv : JSValue) :
    Option (Except Unit (List Nat)) :=
  match alookup st.bucket t with
  | none => none
  | some dm =>
      let acc := addToRun st [] ((alookup dm k).getD [])
      let acc := if ty = OpType.addOp ∨ ty = OpType.deleteOp then
        addToRun st acc ((alookup dm ITERATE_KEY).getD []) else acc
      let acc := if ty = OpType.addOp ∧ (heapAt st t).isArr then
        addToRun st acc ((alookup dm (JSKey.str "length")).getD []) else acc
      if (heapAt st t).isArr ∧ k = JSKey.str "length" then
        some (lengthScan st dm nv acc)
      else some (Except.ok acc)

/-! ## The interpreter

The result of executing a piece of the program: a normal completion
carrying the new state and the boolean the trap reports to the language
runtime, a propagating TypeError carrying the state at the throw, or fuel
exhaustion.  Fuel is consumed only when an effect starts a (re-)run, so
fuel exhaustion witnesses unbounded effect recursion. -/
inductive Res where
  | ok : St → Bool → Res
  | thrown : St → Res
  | fuelOut : Res
deriving DecidableEq, Repr

/-- The function `flushJob()`: if a flush is already pending do nothing, else set the
guard and enqueue the deferred flush callback. -/
def flushJob (st : St) : St :=
  if st.isFlushing then st
  else { st with isFlushing := true, flushPending := true }

/-- The body of the `scheduler` option of the scheduler file:
`jobQueue.add(fn); flushJob()`. -/
def schedule (st : St) (e : Nat) : St :=
  flushJob { st with jobQueue := setAdd st.jobQueue e }

/-- Run the members of `effectsToRun` in order.  A member with the
scheduler option is handed to the scheduler instead of being executed;
an ordinary member is executed through `re` (the effect runner at the
current fuel). -/
def runList (re : St → Nat → Res) : St → List Nat → Res
  | st, [] => Res.ok st true
  | st, e :: rest =>
      if (effAt st e).hasSched then runList re (schedule st e) rest
      else
        match re st e with
        | Res.ok st' _ => runList re st' rest
        | r => r

/-- The function `trigger(target, key, type, newVal)`: assemble `effectsToRun` and run
it; a TypeError thrown while assembling propagates before anything
runs. -/
def triggerAux (re : St → Nat → Res) (st : St) (t : Nat) (k : JSKey)
    (ty : OpType) (nv : JSValue) : Res :=
  match buildToRun st t k ty nv with
  | none => Res.ok st true
  | some (Except.error _) => Res.thrown st
  | some (Except.ok l) => runList re st l

/-- The `set` trap of `createReactive`.  `recv` is the raw object behind
the receiver of the assignment (`receiver.raw`); for a direct assignment
through the view it is the view target itself.  Following the source:
read the old value from the target, classify against the target, let
`Reflect.set` perform the assignment (which lands on the receiver), and
notify only when the receiver unwraps to the target and the old and new
values pass the guard. -/
def setTrap (re : St → Nat → Res) (st : St) (v : View) (k : JSKey)
    (nv : JSValue) (recv : Nat) : Res :=
  if v.isReadonly then Res.ok { st with warns := st.warns + 1 } true
  else
    let tobj := heapAt st v.tid
    let oldVal := rawGet tobj k
    match classify tobj k with
    | Except.error _ => Res.thrown st
    | Except.ok ty =>
        let st1 := setHeap st recv (rawSet (heapAt st recv) k nv)
        if recv = v.tid then
          if setGuard oldVal nv then triggerAux re st1 v.tid k ty nv
          else Res.ok st1 true
        else Res.ok st1 true

/-- The `deleteProperty` trap of `createReactive`. -/
def delTrap (re : St → Nat → Res) (st : St) (v : View) (k : JSKey) : Res :=
  if v.isReadonly then Res.ok { st with warns := st.warns + 1 } true
  else
    let tobj := heapAt st v.tid
    let hadKey := rawHasOwn tobj k
    let pr := rawDelete tobj k
    let st1 := setHeap st v.tid pr.1
    if pr.2 ∧ hadKey then triggerAux re st1 v.tid k OpType.deleteOp JSValue.undef
    else Res.ok st1 pr.2

/-- The `get` trap of `createReactive`, restricted to its effect on the
machine state: reading the reserved `raw` key returns the raw target and
does not track; otherwise the read is tracked unless the view is
read-only.  (The recursive wrapping of an object-valued result into a
further view does not change the state and is not modelled; result
values are consumed only by `branch`, through `getValue`.) -/
def getTrap (st : St) (v : View) (k : JSKey) : St :=
  if k = JSKey.str "raw" then st
  else if v.isReadonly then st
  else track st v.tid k

/-- The value produced by a read through a view, for branching. -/
def getValue (st : St) (v : View) (k : JSKey) : JSValue :=
  if k = JSKey.str "raw" then JSValue.obj v.tid
  else rawGet (heapAt st v.tid) k

/-- The `has` trap of `createReactive`: tracks unconditionally. -/
def hasTrap (st : St) (v : View) (k : JSKey) : St :=
  track st v.tid k

/-- The `ownKeys` trap of `createReactive`: tracks `ITERATE_KEY`
unconditionally. -/
def ownKeysTrap (st : St) (v : View) : St :=
  track st v.tid ITERATE_KEY

/-- Execute an effect body.  `re` runs an effect at the strictly smaller
fuel and is threaded through the traps to `trigger`. -/
def runProgAux (re : St → Nat → Res) : St → Prog → Res
  | st, Prog.skip => Res.ok st true
  | st, Prog.seq p q =>
      match runProgAux re st p with
      | Res.ok st' _ => runProgAux re st' q
      | r => r
  | st, Prog.readK v k => Res.ok (getTrap st v k) true
  | st, Prog.writeK v k nv => setTrap re st v k nv v.tid
  | st, Prog.hasK v k => Res.ok (hasTrap st v k) true
  | st, Prog.iterK v => Res.ok (ownKeysTrap st v) true
  | st, Prog.delK v k => delTrap re st v k
  | st, Prog.branch v k p q =>
      let val := getValue st v k
      let st1 := getTrap st v k
      if truthy val then runProgAux re st1 p else runProgAux re st1 q

/-- Set `activeEffect` by pushing onto the effect stack, recording the
beginning of the run in the log. -/
def pushRun (st : St) (e : Nat) : St :=
  { st with stack := e :: st.stack, execLog := st.execLog ++ [e] }

/-- The wrapped `effectFn()`: cleanup, set `activeEffect` and push onto the stack,
run the body, pop.  The source pops the stack only when `fn()` returns
normally; a TypeError propagating out of the body leaves the pushed
frame behind, and this is modelled faithfully.  The run is recorded in
`execLog` when it begins. -/
def runEffect : Nat → St → Nat → Res
  | 0, _, _ => Res.fuelOut
  | fuel + 1, st, e =>
      match runProgAux (runEffect fuel) (pushRun (cleanup st e) e)
          (effAt (cleanup st e) e).body with
      | Res.ok st3 _ => Res.ok { st3 with stack := st3.stack.tail } true
      | r => r

/-- The function `trigger` at a given fuel. -/
def trigger (fuel : Nat) (st : St) (t : Nat) (k : JSKey) (ty : OpType)
    (nv : JSValue) : Res :=
  triggerAux (runEffect fuel) st t k ty nv

/-- The function `runProg` at a given fuel. -/
def runProg (fuel : Nat) (st : St) (p : Prog) : Res :=
  runProgAux (runEffect fuel) st p

/-! ## The flush and the script driver -/

/-- The live iteration of `jobQueue.forEach(job => job())`: the queue is
never shrunk, and members appended by a running job are visited by the
same iteration, so walking it by position is faithful. -/
def flushLoop : Nat → St → Nat → Res
  | 0, _, _ => Res.fuelOut
  | fuel + 1, st, i =>
      if i < st.jobQueue.length then
        match runEffect fuel st (st.jobQueue.getD i 0) with
        | Res.ok st' _ => flushLoop fuel st' (i + 1)
        | r => r
      else Res.ok st true

/-- Deliver the queued microtask: `p.then(() => jobQueue.forEach(...))
.finally(() => isFlushing = false)`.  The `finally` callback resets the
guard whether the flush body completed or threw; the pending set is not
touched. -/
def drain (fuel : Nat) (st : St) : Res :=
  if st.flushPending then
    match flushLoop fuel { st with flushPending := false } 0 with
    | Res.ok st' _ => Res.ok { st' with isFlushing := false } true
    | Res.thrown st' => Res.thrown { st' with isFlushing := false }
    | Res.fuelOut => Res.fuelOut
  else Res.ok st true

/-- The function `effect(fn, options)`: append the wrapped effect and, unless lazy,
run it immediately. -/
def registerEffect (fuel : Nat) (st : St) (body : Prog) (sched : Bool)
    (lzy : Bool) : Res :=
  let e := st.effs.length
  let st1 := { st with effs := st.effs ++ [⟨body, sched, lzy, []⟩] }
  if lzy then Res.ok st1 true else runEffect fuel st1 e

/-- One top-level action of a demo script. -/
inductive Act where
  | reg : Prog → Bool → Bool → Act
  | run : Prog → Act
  | microtasks : Act
deriving DecidableEq, Repr

/-- Run a script of top-level actions. -/
def runScript (fuel : Nat) : St → List Act → Res
  | st, [] => Res.ok st true
  | st, a :: rest =>
      match (match a with
             | Act.reg p s l => registerEffect fuel st p s l
             | Act.run p => runProg fuel st p
             | Act.microtasks => drain fuel st) with
      | Res.ok st' _ => runScript fuel st' rest
      | r => r

/-- The state of a script result (kept at a throw; empty at fuel
exhaustion, which the scripts below never reach). -/
def stOf : Res → Option St
  | Res.ok st _ => some st
  | Res.thrown st => some st
  | Res.fuelOut => none

/-- The execution log of a result. -/
def logOf (r : Res) : Option (List Nat) := (stOf r).map St.execLog

/-- Whether a result is a propagating TypeError. -/
def isThrown : Res → Bool
  | Res.thrown _ => true
  | _ => false

/-- An initial state over a given heap: no effects, empty store. -/
def initSt (heap : List RawObj) : St :=
  ⟨heap, [], [], [], [], false, false, [], [], 0⟩

/-! ## Well-formedness predicates (decidable, for concrete witnesses) -/

/-- Every effect id stored anywhere in the bucket equals `e`: the effect
`e` is the only subscriber in the whole dependency store. -/
def bucketOnly (st : St) (e : Nat) : Bool :=
  st.bucket.all (fun td => td.2.all (fun ks => ks.2.all (fun x => x == e)))

/-- The dependency map of target `t` holds no symbol key (in particular
not the reserved structural key), so the truncation scan of `trigger`
cannot throw on it. -/
def noSymKeys (st : St) (t : Nat) : Bool :=
  ((alookup st.bucket t).getD []).all (fun ks =>
    match ks.1 with
    | JSKey.str _ => true
    | JSKey.sym _ => false)

/-- The bookkeeping agreement between `effectFn.deps` and the bucket, for
effect `e`: every pair in `deps` has `e` in its bucket set, and every
bucket set containing `e` is listed in `deps`. -/
def depsAgree (st : St) (e : Nat) : Bool :=
  (effAt st e).deps.all (fun pr => decide (e ∈ bucketSet st pr.1 pr.2)) &&
  st.bucket.all (fun td => td.2.all (fun ks =>
    !(decide (e ∈ ks.2)) || decide ((td.1, ks.1) ∈ (effAt st e).deps)))

/-- The membership invariant of the dependency bookkeeping, as a
proposition: effect `e` belongs to the set at `(t, k)` exactly when
`(t, k)` is listed in its `deps`. -/
def Agrees (st : St) (e : Nat) : Prop :=
  ∀ t k, e ∈ bucketSet st t k ↔ (t, k) ∈ (effAt st e).deps

/-- A body that contains no write and no delete: running it can only
track dependencies, never trigger. -/
def writeFree : Prog → Bool
  | Prog.skip => true
  | Prog.seq p q => writeFree p && writeFree q
  | Prog.readK _ _ => true
  | Prog.writeK _ _ _ => false
  | Prog.hasK _ _ => true
  | Prog.iterK _ => true
  | Prog.delK _ _ => false
  | Prog.branch _ _ p q => writeFree p && writeFree q

/-! ## Association-list lemmas -/

theorem alookup_mem {α β : Type} [DecidableEq α] {l : List (α × β)} {a : α}
    {b : β} (h : alookup l a = some b) : (a, b) ∈ l := by
  induction l with
  | nil => simp [alookup] at h
  | cons hd tl ih =>
      rw [alookup] at h
      by_cases hx : hd.1 = a
      · rcases hd with ⟨a', b'⟩
        simp only at hx
        subst hx
        simp at h
        simp [h]
      · rcases hd with ⟨a', b'⟩
        simp only at hx
        simp [hx] at h
        simp [ih h]

theorem alookup_aupdate_self {α β : Type} [DecidableEq α] (l : List (α × β))
    (x : α) (f : β → β) (d : β) :
    alookup (aupdate l x f d) x = some (f ((alookup l x).getD d)) := by
  induction l with
  | nil => simp [alookup, aupdate]
  | cons hd tl ih =>
      rcases hd with ⟨a, b⟩
      by_cases hx : a = x
      · subst hx
        simp [aupdate, alookup]
      · simp [aupdate, alookup, hx, ih]

theorem alookup_aupdate_ne {α β : Type} [DecidableEq α] (l : List (α × β))
    (x y : α) (f : β → β) (d : β) (h : y ≠ x) :
    alookup (aupdate l x f d) y = alookup l y := by
  have h' : ¬x = y := fun hh => h hh.symm
  induction l with
  | nil => simp [alookup, aupdate, h']
  | cons hd tl ih =>
      rcases hd with ⟨a, b⟩
      by_cases hx : a = x
      · subst hx
        simp [aupdate, alookup, h']
      · simp [aupdate, alookup, hx, ih]

/-! ## Membership in the notify set -/

theorem mem_addToRun (st : St) (e : Nat) :
    ∀ (l acc : List Nat),
      e ∈ addToRun st acc l ↔ e ∈ acc ∨ (e ∈ l ∧ keepEff st e = true) := by
  intro l
  induction l with
  | nil => simp [addToRun]
  | cons x xs ih =>
      intro acc
      have hstep : addToRun st acc (x :: xs) =
          addToRun st (if keepEff st x ∧ x ∉ acc then acc ++ [x] else acc) xs := by
        simp [addToRun, List.foldl]
      rw [hstep, ih]
      by_cases hk : keepEff st x
      · by_cases hmem : x ∈ acc
        · simp only [hk, hmem, not_true, and_false, if_false]
          constructor
          · rintro (h | h)
            · exact Or.inl h
            · exact Or.inr ⟨List.mem_cons_of_mem _ h.1, h.2⟩
          · rintro (h | ⟨h1, h2⟩)
            · exact Or.inl h
            · rcases List.mem_cons.mp h1 with h1 | h1
              · subst h1; exact Or.inl hmem
              · exact Or.inr ⟨h1, h2⟩
        · simp only [hk, hmem, not_false_iff, and_true, true_and, if_true]
          constructor
          · rintro (h | h)
            · rcases List.mem_append.mp h with h | h
              · exact Or.inl h
              · simp at h; subst h; exact Or.inr ⟨List.mem_cons_self _ _, hk⟩
            · exact Or.inr ⟨List.mem_cons_of_mem _ h.1, h.2⟩
          · rintro (h | ⟨h1, h2⟩)
            · exact Or.inl (List.mem_append.mpr (Or.inl h))
            · rcases List.mem_cons.mp h1 with h1 | h1
              · subst h1; exact Or.inl (List.mem_append.mpr (Or.inr (by simp)))
              · exact Or.inr ⟨h1, h2⟩
      · simp only [hk, false_and, if_false]
        constructor
        · rintro (h | h)
          · exact Or.inl h
          · exact Or.inr ⟨List.mem_cons_of_mem _ h.1, h.2⟩
        · rintro (h | ⟨h1, h2⟩)
          · exact Or.inl h
          · rcases List.mem_cons.mp h1 with h1 | h1
            · subst h1; exact absurd h2 (by simpa using hk)
            · exact Or.inr ⟨h1, h2⟩

theorem addToRun_nodup (st : St) :
    ∀ (l acc : List Nat), acc.Nodup → (addToRun st acc l).Nodup := by
  intro l
  induction l with
  | nil => intro acc h; simpa [addToRun] using h
  | cons x xs ih =>
      intro acc h
      have hstep : addToRun st acc (x :: xs) =
          addToRun st (if keepEff st x ∧ x ∉ acc then acc ++ [x] else acc) xs := by
        simp [addToRun, List.foldl]
      rw [hstep]
      apply ih
      by_cases hc : keepEff st x = true ∧ x ∉ acc
      · rw [if_pos hc]
        refine List.Nodup.append h (List.nodup_singleton x) ?_
        intro a ha hax
        rw [List.mem_singleton] at hax
        subst hax
        exact hc.2 ha
      · rw [if_neg hc]; exact h

theorem keyGE_str_ok (s : String) (nv : JSValue) :
    ∃ b, keyGE (JSKey.str s) nv = Except.ok b := by
  cases nv with
  | str s' => exact ⟨_, rfl⟩
  | undef => cases h : strToNum s <;> simp [keyGE, h, toNum]
  | nan => cases h : strToNum s <;> simp [keyGE, h, toNum]
  | num n => cases h : strToNum s <;> simp [keyGE, h, toNum]
  | boolean b => cases h : strToNum s <;> simp [keyGE, h, toNum]
  | obj o => cases h : strToNum s <;> simp [keyGE, h, toNum]

theorem lengthScan_mono (st : St) (e : Nat) (nv : JSValue) :
    ∀ (dm : List (JSKey × List Nat)) (acc l : List Nat),
      lengthScan st dm nv acc = Except.ok l → e ∈ acc → e ∈ l := by
  intro dm
  induction dm with
  | nil => intro acc l h hm; simp [lengthScan] at h; simpa [← h] using hm
  | cons hd tl ih =>
      intro acc l h hm
      rcases hd with ⟨k, s⟩
      rw [lengthScan] at h
      cases hk : keyGE k nv with
      | error u => rw [hk] at h; cases h
      | ok b =>
          rw [hk] at h
          refine ih _ _ h ?_
          by_cases hb : b
          · subst hb
            simp only [if_true]
            exact (mem_addToRun st e s acc).mpr (Or.inl hm)
          · simp only [hb, if_false]; exact hm

theorem lengthScan_entry (st : St) (e : Nat) (nv : JSValue) :
    ∀ (dm : List (JSKey × List Nat)) (acc l : List Nat)
      (k0 : JSKey) (s0 : List Nat),
      (k0, s0) ∈ dm → keyGE k0 nv = Except.ok true → e ∈ s0 →
      keepEff st e = true →
      lengthScan st dm nv acc = Except.ok l → e ∈ l := by
  intro dm
  induction dm with
  | nil => intro acc l k0 s0 hmem; simp at hmem
  | cons hd tl ih =>
      intro acc l k0 s0 hmem hge hs hk h
      rcases hd with ⟨k, s⟩
      rw [lengthScan] at h
      rcases List.mem_cons.mp hmem with heq | hmem'
      · injection heq with h1 h2
        subst h1; subst h2
        rw [hge] at h
        simp only [if_true] at h
        exact lengthScan_mono st e nv tl _ l h
          ((mem_addToRun st e s0 acc).mpr (Or.inr ⟨hs, hk⟩))
      · cases hkge : keyGE k nv with
        | error u => rw [hkge] at h; cases h
        | ok b => rw [hkge] at h; exact ih _ _ _ _ hmem' hge hs hk h

theorem lengthScan_nodup (st : St) (nv : JSValue) :
    ∀ (dm : List (JSKey × List Nat)) (acc l : List Nat),
      acc.Nodup → lengthScan st dm nv acc = Except.ok l → l.Nodup := by
  intro dm
  induction dm with
  | nil => intro acc l hn h; simp [lengthScan] at h; subst h; exact hn
  | cons hd tl ih =>
      intro acc l hn h
      rcases hd with ⟨k, s⟩
      rw [lengthScan] at h
      cases hk : keyGE k nv with
      | error u => rw [hk] at h; cases h
      | ok b =>
          rw [hk] at h
          refine ih _ _ ?_ h
          by_cases hb : b
          · subst hb; simp only [if_true]; exact addToRun_nodup st s acc hn
          · simp only [hb, if_false]; exact hn

/-- If every key of the dependency map is a string, the truncation scan
cannot throw. -/
theorem lengthScan_ok_of_str (st : St) (nv : JSValue) :
    ∀ (dm : List (JSKey × List Nat)) (acc : List Nat),
      (∀ ks ∈ dm, ∃ s, ks.1 = JSKey.str s) →
      ∃ l, lengthScan st dm nv acc = Except.ok l := by
  intro dm
  induction dm with
  | nil => intro acc _; exact ⟨acc, rfl⟩
  | cons hd tl ih =>
      intro acc hstr
      rcases hd with ⟨k, s⟩
      rcases hstr (k, s) (List.mem_cons_self _ _) with ⟨ks, hks⟩
      simp only at hks
      subst hks
      rcases keyGE_str_ok ks nv with ⟨b, hb⟩
      rcases ih (if b = true then addToRun st acc s else acc)
        (fun ks' hm => hstr ks' (List.mem_cons_of_mem _ hm)) with ⟨l, hl⟩
      exact ⟨l, by rw [lengthScan, hb]; exact hl⟩

/-! ## The solo-subscriber situation: triggers during a run execute
nothing -/

theorem keepEff_self (st : St) (e : Nat) (h : activeEffect st = some e) :
    keepEff st e = false := by
  simp [keepEff, h]

theorem addToRun_skip (st : St) (e : Nat) :
    ∀ (l acc : List Nat), (∀ x ∈ l, x = e) → keepEff st e = false →
      addToRun st acc l = acc := by
  intro l
  induction l with
  | nil => intro acc _ _; rfl
  | cons x xs ih =>
      intro acc hall hk
      have hx : x = e := hall x (List.mem_cons_self _ _)
      subst hx
      have hstep : addToRun st acc (x :: xs) =
          addToRun st (if keepEff st x ∧ x ∉ acc then acc ++ [x] else acc) xs := by
        simp [addToRun, List.foldl]
      rw [hstep, if_neg (by simp [hk]),
        ih acc (fun y hy => hall y (List.mem_cons_of_mem _ hy)) hk]

theorem lengthScan_skip (st : St) (e : Nat) (nv : JSValue) :
    ∀ (dm : List (JSKey × List Nat)) (acc : List Nat),
      (∀ ks ∈ dm, ∀ x ∈ ks.2, x = e) → keepEff st e = false →
      lengthScan st dm nv acc = Except.ok acc ∨
      lengthScan st dm nv acc = Except.error () := by
  intro dm
  induction dm with
  | nil => intro acc _ _; exact Or.inl rfl
  | cons hd tl ih =>
      intro acc hall hk
      rcases hd with ⟨k, s⟩
      rw [lengthScan]
      cases hkge : keyGE k nv with
      | error u => exact Or.inr rfl
      | ok b =>
          have hs : addToRun st acc s = acc :=
            addToRun_skip st e s acc
              (fun x hx => hall (k, s) (List.mem_cons_self _ _) x hx) hk
          have ht := ih acc
            (fun ks hm x hx => hall ks (List.mem_cons_of_mem _ hm) x hx) hk
          by_cases hb : b
          · subst hb; simpa [hs] using ht
          · simpa [hb] using ht

/-- Unpacking `bucketOnly`: any id found in any set of the bucket is the
designated effect. -/
theorem bucketOnly_mem (st : St) (e : Nat) (h : bucketOnly st e = true)
    {t : Nat} {dm : List (JSKey × List Nat)} (hdm : alookup st.bucket t = some dm)
    {ks : JSKey × List Nat} (hks : ks ∈ dm) {x : Nat} (hx : x ∈ ks.2) :
    x = e := by
  have hmem : (t, dm) ∈ st.bucket := alookup_mem hdm
  rw [bucketOnly, List.all_eq_true] at h
  have h1 := h (t, dm) hmem
  rw [List.all_eq_true] at h1
  have h2 := h1 ks hks
  rw [List.all_eq_true] at h2
  simpa using h2 x hx

/-- While the solo subscriber is the active effect, any `trigger` either
returns the state unchanged (nothing qualifies to run) or throws from the
truncation scan before running anything. -/
theorem triggerAux_solo (re : St → Nat → Res) (st : St) (t : Nat) (k : JSKey)
    (ty : OpType) (nv : JSValue) (hb : bucketOnly st 0 = true)
    (ha : activeEffect st = some 0) :
    triggerAux re st t k ty nv = Res.ok st true ∨
    triggerAux re st t k ty nv = Res.thrown st := by
  rw [triggerAux, buildToRun]
  cases hdm : alookup st.bucket t with
  | none => exact Or.inl rfl
  | some dm =>
      have hk0 : keepEff st 0 = false := keepEff_self st 0 ha
      have hall : ∀ (k' : JSKey) (l : List Nat), alookup dm k' = some l →
          ∀ x ∈ l, x = 0 := by
        intro k' l hl x hx
        exact bucketOnly_mem st 0 hb hdm (alookup_mem hl) hx
      have hget : ∀ (k' : JSKey), ∀ x ∈ (alookup dm k').getD [], x = 0 := by
        intro k' x hx
        cases hl : alookup dm k' with
        | none => rw [hl] at hx; simp at hx
        | some l => rw [hl] at hx; exact hall k' l hl x hx
      have hacc1 : addToRun st [] ((alookup dm k).getD []) = [] :=
        addToRun_skip st 0 _ [] (hget k) hk0
      have hacc2 : ∀ acc cond l, acc = ([] : List Nat) →
          (if cond = true then addToRun st acc ((alookup dm l).getD []) else acc)
            = [] := by
        intro acc cond l hacc
        subst hacc
        by_cases hc : cond = true
        · simp only [hc, if_true]; exact addToRun_skip st 0 _ [] (hget l) hk0
        · simp [hc]
      simp only [hacc1]
      rw [show (if ty = OpType.addOp ∨ ty = OpType.deleteOp then
            addToRun st [] ((alookup dm ITERATE_KEY).getD []) else []) = [] by
          split
          · exact addToRun_skip st 0 _ [] (hget ITERATE_KEY) hk0
          · rfl]
      rw [show (if ty = OpType.addOp ∧ (heapAt st t).isArr then
            addToRun st [] ((alookup dm (JSKey.str "length")).getD []) else []) = [] by
          split
          · exact addToRun_skip st 0 _ [] (hget (JSKey.str "length")) hk0
          · rfl]
      by_cases harr : (heapAt st t).isArr ∧ k = JSKey.str "length"
      · rw [if_pos harr]
        rcases lengthScan_skip st 0 nv dm []
            (fun ks hm x hx => bucketOnly_mem st 0 hb hdm hm hx) hk0 with hs | hs
        · rw [hs]; exact Or.inl rfl
        · rw [hs]; exact Or.inr rfl
      · rw [if_neg harr]
        exact Or.inl rfl

/-! ## Effects of track, bucketRemove and cleanup on the store -/

theorem mem_setAdd (l : List Nat) (e x : Nat) :
    x ∈ setAdd l e ↔ x ∈ l ∨ x = e := by
  rw [setAdd]
  by_cases h : e ∈ l
  · rw [if_pos h]
    constructor
    · exact Or.inl
    · rintro (hx | hx)
      · exact hx
      · subst hx; exact h
  · rw [if_neg h]
    simp

/-- The projection of an effect that survives every run: body and
options. -/
def effProj (eo : EffectObj) : Prog × Bool × Bool := (eo.body, eo.hasSched, eo.lazyFlag)

theorem effProj_effAt (st : St) (e : Nat) :
    effProj (effAt st e) = (st.effs.map effProj).getD e (effProj defaultEffect) := by
  cases h : st.effs[e]? with
  | none => simp [effAt, List.getD, h, List.getElem?_map]
  | some eo => simp [effAt, List.getD, h, List.getElem?_map]

theorem getD_set_self {α : Type} (l : List α) (n : Nat) (a d : α) :
    (l.set n a).getD n d = if n < l.length then a else d := by
  induction l generalizing n with
  | nil => simp [List.set]
  | cons hd tl ih =>
      cases n with
      | zero => simp [List.set, List.getD]
      | succ n => simpa [List.set, List.getD_cons_succ, Nat.succ_lt_succ_iff] using ih n

theorem getD_set_ne {α : Type} (l : List α) (n m : Nat) (a d : α)
    (h : n ≠ m) : (l.set n a).getD m d = l.getD m d := by
  induction l generalizing n m with
  | nil => simp [List.set]
  | cons hd tl ih =>
      cases n with
      | zero =>
          cases m with
          | zero => exact absurd rfl h
          | succ m => simp [List.set, List.getD_cons_succ]
      | succ n =>
          cases m with
          | zero => simp [List.set, List.getD_cons_zero]
          | succ m =>
              simp only [List.set, List.getD_cons_succ]
              exact ih n m (fun hh => h (by rw [hh]))

theorem map_effProj_set (l : List EffectObj) (f : EffectObj → EffectObj)
    (hf : ∀ eo, effProj (f eo) = effProj eo) :
    ∀ e : Nat, (l.set e (f (l.getD e defaultEffect))).map effProj = l.map effProj := by
  induction l with
  | nil => intro e; rfl
  | cons hd tl ih =>
      intro e
      cases e with
      | zero => simp [List.getD, hf]
      | succ e => simp only [List.set, List.map, List.getD_cons_succ]; rw [ih]

theorem mem_aupdate {α β : Type} [DecidableEq α] (l : List (α × β)) (x : α)
    (f : β → β) (d : β) :
    ∀ y ∈ aupdate l x f d, y ∈ l ∨ y = (x, f ((alookup l x).getD d)) := by
  induction l with
  | nil => intro y hy; right; simpa [aupdate, alookup] using hy
  | cons hd tl ih =>
      rcases hd with ⟨a, b⟩
      intro y hy
      by_cases hx : a = x
      · subst hx
        rw [aupdate, if_pos rfl] at hy
        rcases List.mem_cons.mp hy with hy | hy
        · right; rw [hy, alookup, if_pos rfl]; rfl
        · left; exact List.mem_cons_of_mem _ hy
      · rw [aupdate, if_neg hx] at hy
        rcases List.mem_cons.mp hy with hy | hy
        · left; rw [hy]; exact List.mem_cons_self _ _
        · rcases ih y hy with hy' | hy'
          · left; exact List.mem_cons_of_mem _ hy'
          · right; rw [hy', alookup, if_neg hx]

/-- The effect of the two-level `aupdate` used by `track` and by
`bucketRemove` on the set read back by `bucketSet`: the addressed set is
transformed by `g`, every other set is untouched. -/
theorem lookup2_aupdate (bucket : List (Nat × List (JSKey × List Nat)))
    (t : Nat) (k : JSKey) (g : List Nat → List Nat) (t' : Nat) (k' : JSKey) :
    ((alookup (aupdate bucket t (fun dm => aupdate dm k g []) []) t').bind
        (fun dm => alookup dm k')).getD [] =
      if t' = t ∧ k' = k then
        g (((alookup bucket t).bind (fun dm => alookup dm k)).getD [])
      else ((alookup bucket t').bind (fun dm => alookup dm k')).getD [] := by
  by_cases ht : t' = t
  · subst ht
    rw [alookup_aupdate_self]
    by_cases hk : k' = k
    · subst hk
      rw [if_pos ⟨rfl, rfl⟩]
      rw [Option.some_bind, alookup_aupdate_self]
      cases hdm : alookup bucket t' with
      | none => simp [alookup]
      | some dm => simp
    · rw [if_neg (fun hc => hk hc.2)]
      rw [Option.some_bind, alookup_aupdate_ne _ _ _ _ _ hk]
      cases hdm : alookup bucket t' with
      | none => simp [alookup]
      | some dm => simp
  · rw [if_neg (fun hc => ht hc.1)]
    rw [alookup_aupdate_ne _ _ _ _ _ ht]

/-- Unfolding `track` with an active effect, written out as one record update. -/
theorem track_eq (st : St) (t : Nat) (k : JSKey) (e : Nat)
    (h : activeEffect st = some e) :
    track st t k = { st with
      bucket := aupdate st.bucket t (fun dm => aupdate dm k (fun s => setAdd s e) []) [],
      effs := st.effs.set e { effAt st e with deps := (effAt st e).deps ++ [(t, k)] },
      trace := st.trace ++ [(e, t, k)] } := by
  rw [track, h]
  rfl

theorem bucketSet_track (st : St) (t : Nat) (k : JSKey) (e : Nat)
    (h : activeEffect st = some e) (t' : Nat) (k' : JSKey) :
    bucketSet (track st t k) t' k' =
      if t' = t ∧ k' = k then setAdd (bucketSet st t k) e
      else bucketSet st t' k' := by
  rw [track_eq st t k e h]
  simp only [bucketSet]
  exact lookup2_aupdate st.bucket t k (fun s => setAdd s e) t' k'

theorem bucketSet_bucketRemove (st : St) (t : Nat) (k : JSKey) (e : Nat)
    (t' : Nat) (k' : JSKey) :
    bucketSet (bucketRemove st t k e) t' k' =
      if t' = t ∧ k' = k then (bucketSet st t k).filter (fun x => x ≠ e)
      else bucketSet st t' k' := by
  simp only [bucketRemove, bucketSet]
  exact lookup2_aupdate st.bucket t k _ t' k'

theorem bucketOnly_iff (st : St) (e : Nat) :
    bucketOnly st e = true ↔
      ∀ td ∈ st.bucket, ∀ ks ∈ td.2, ∀ x ∈ ks.2, x = e := by
  simp [bucketOnly, List.all_eq_true]

theorem bucketOnly_track (st : St) (t : Nat) (k : JSKey)
    (h : activeEffect st = some 0) (hb : bucketOnly st 0 = true) :
    bucketOnly (track st t k) 0 = true := by
  rw [track_eq st t k 0 h]
  rw [bucketOnly_iff] at hb ⊢
  intro td htd ks hks x hx
  rcases mem_aupdate _ _ _ _ td htd with htd' | htd'
  · exact hb td htd' ks hks x hx
  · subst htd'
    simp only at hks
    have hdm : ∀ ks' ∈ (alookup st.bucket t).getD [], ∀ x' ∈ ks'.2, x' = 0 := by
      cases hdm : alookup st.bucket t with
      | none => simp
      | some dm =>
          intro ks' hks' x' hx'
          exact hb (t, dm) (alookup_mem hdm) ks' hks' x' hx'
    rcases mem_aupdate _ _ _ _ ks hks with hks' | hks'
    · exact hdm ks hks' x hx
    · subst hks'
      simp only at hx
      rcases (mem_setAdd _ _ _).mp hx with hx' | hx'
      · cases hdm2 : alookup ((alookup st.bucket t).getD []) k with
        | none => rw [hdm2] at hx'; simp at hx'
        | some s =>
            rw [hdm2] at hx'
            exact hdm (k, s) (alookup_mem hdm2) x hx'
      · exact hx'

theorem Agrees_track (st : St) (t : Nat) (k : JSKey)
    (h : activeEffect st = some 0) (hlen : 0 < st.effs.length)
    (hA : Agrees st 0) : Agrees (track st t k) 0 := by
  intro t' k'
  rw [bucketSet_track st t k 0 h t' k']
  have hdeps : (effAt (track st t k) 0).deps = (effAt st 0).deps ++ [(t, k)] := by
    rw [track_eq st t k 0 h]
    simp only [effAt]
    rw [getD_set_self, if_pos hlen]
  rw [hdeps]
  by_cases hc : t' = t ∧ k' = k
  · rcases hc with ⟨h1, h2⟩
    subst h1; subst h2
    rw [if_pos ⟨rfl, rfl⟩]
    simp [mem_setAdd]
  · rw [if_neg hc]
    rw [hA t' k']
    constructor
    · intro hm; exact List.mem_append.mpr (Or.inl hm)
    · intro hm
      rcases List.mem_append.mp hm with hm | hm
      · exact hm
      · simp at hm
        exact absurd ⟨hm.1, hm.2⟩ hc

/-! ## What is preserved across a run in the solo situation -/

/-- State relation maintained while the body of the solo subscriber
executes: the log, stack, scheduler state and effect options are
untouched; the solo-subscriber property survives; the trace grows by
exactly the reads tracked, which are appended verbatim to the deps of
effect 0; and the deps-bucket agreement is preserved. -/
structure SoloQ (st st' : St) : Prop where
  log : st'.execLog = st.execLog
  stk : st'.stack = st.stack
  jq : st'.jobQueue = st.jobQueue
  flg : st'.isFlushing = st.isFlushing
  fpd : st'.flushPending = st.flushPending
  effsP : st'.effs.map effProj = st.effs.map effProj
  bOnly : bucketOnly st 0 = true → bucketOnly st' 0 = true
  tr : ∃ tr, st'.trace = st.trace ++ tr ∧
    (effAt st' 0).deps = (effAt st 0).deps ++ tr.map (fun x => (x.2.1, x.2.2))
  agrees : Agrees st 0 → Agrees st' 0

theorem soloQRefl (st : St) : SoloQ st st :=
  ⟨rfl, rfl, rfl, rfl, rfl, rfl, id, ⟨[], by simp, by simp⟩, id⟩

theorem SoloQ.trans {s1 s2 s3 : St} (h1 : SoloQ s1 s2) (h2 : SoloQ s2 s3) :
    SoloQ s1 s3 := by
  refine ⟨h2.log.trans h1.log, h2.stk.trans h1.stk, h2.jq.trans h1.jq,
    h2.flg.trans h1.flg, h2.fpd.trans h1.fpd, h2.effsP.trans h1.effsP,
    fun hb => h2.bOnly (h1.bOnly hb), ?_, fun ha => h2.agrees (h1.agrees ha)⟩
  rcases h1.tr with ⟨t1, ht1, hd1⟩
  rcases h2.tr with ⟨t2, ht2, hd2⟩
  exact ⟨t1 ++ t2, by rw [ht2, ht1, List.append_assoc],
    by rw [hd2, hd1, List.map_append, List.append_assoc]⟩

/-- A state differing only in heap and warning count is SoloQ-related. -/
theorem SoloQ.heapWarns (st : St) (heap' : List RawObj) (w : Nat) :
    SoloQ st { st with heap := heap', warns := w } :=
  ⟨rfl, rfl, rfl, rfl, rfl, rfl, id, ⟨[], by simp, by simp [effAt]⟩, id⟩

theorem SoloQ.track (st : St) (t : Nat) (k : JSKey)
    (h : activeEffect st = some 0) (hlen : 0 < st.effs.length) :
    SoloQ st (VueBook.track st t k) := by
  refine ⟨?_, ?_, ?_, ?_, ?_, ?_, bucketOnly_track st t k h, ?_,
    Agrees_track st t k h hlen⟩
  · rw [track_eq st t k 0 h]
  · rw [track_eq st t k 0 h]
  · rw [track_eq st t k 0 h]
  · rw [track_eq st t k 0 h]
  · rw [track_eq st t k 0 h]
  · rw [track_eq st t k 0 h]
    exact map_effProj_set st.effs
      (fun eo => { eo with deps := eo.deps ++ [(t, k)] }) (fun eo => rfl) 0
  · refine ⟨[(0, t, k)], by rw [track_eq st t k 0 h], ?_⟩
    rw [track_eq st t k 0 h]
    simp only [effAt, List.map]
    rw [getD_set_self, if_pos hlen]

theorem SoloQ.getTrap (st : St) (v : View) (k : JSKey)
    (h : activeEffect st = some 0) (hlen : 0 < st.effs.length) :
    SoloQ st (VueBook.getTrap st v k) := by
  rw [VueBook.getTrap]
  by_cases h1 : k = JSKey.str "raw"
  · rw [if_pos h1]; exact soloQRefl st
  · rw [if_neg h1]
    by_cases h2 : v.isReadonly
    · rw [if_pos h2]; exact soloQRefl st
    · rw [if_neg h2]; exact SoloQ.track st v.tid k h hlen

theorem SoloQ.len {s1 s2 : St} (h : SoloQ s1 s2) :
    s2.effs.length = s1.effs.length := by
  have := congrArg List.length h.effsP
  simpa using this

theorem SoloQ.active {s1 s2 : St} (h : SoloQ s1 s2) :
    activeEffect s2 = activeEffect s1 := by
  rw [activeEffect, activeEffect, h.stk]

/-- The master lemma of the solo situation: while the only subscriber
recorded anywhere in the store is effect 0 and effect 0 is the active
effect, any body completes (normally or with the length-scan TypeError)
without running or scheduling any effect, and changes only the heap, the
warning count, the store and its own `deps` and trace. -/
theorem runProgAux_solo (re : St → Nat → Res) :
    ∀ (p : Prog) (st : St), bucketOnly st 0 = true → activeEffect st = some 0 →
      0 < st.effs.length →
      ∃ st' b,
        (runProgAux re st p = Res.ok st' b ∨ runProgAux re st p = Res.thrown st')
          ∧ SoloQ st st' := by
  intro p
  induction p with
  | skip =>
      intro st hb ha hl
      exact ⟨st, true, Or.inl rfl, soloQRefl st⟩
  | seq p q ihp ihq =>
      intro st hb ha hl
      rcases ihp st hb ha hl with ⟨st1, b1, hr1, hq1⟩
      have hrun : ∀ r, runProgAux re st p = r →
          runProgAux re st (Prog.seq p q) =
            (match r with
             | Res.ok s _ => runProgAux re s q
             | r => r) := by
        intro r hr
        rw [runProgAux, hr]
      rcases hr1 with hr1 | hr1
      · have hb1 : bucketOnly st1 0 = true := hq1.bOnly hb
        have ha1 : activeEffect st1 = some 0 := by rw [hq1.active]; exact ha
        have hl1 : 0 < st1.effs.length := by rw [hq1.len]; exact hl
        rcases ihq st1 hb1 ha1 hl1 with ⟨st2, b2, hr2, hq2⟩
        refine ⟨st2, b2, ?_, hq1.trans hq2⟩
        rw [hrun _ hr1]
        exact hr2
      · refine ⟨st1, true, Or.inr ?_, hq1⟩
        rw [hrun _ hr1]
  | readK v k =>
      intro st hb ha hl
      exact ⟨VueBook.getTrap st v k, true, Or.inl rfl, SoloQ.getTrap st v k ha hl⟩
  | writeK v k nv =>
      intro st hb ha hl
      show ∃ st' b, (setTrap re st v k nv v.tid = Res.ok st' b ∨
        setTrap re st v k nv v.tid = Res.thrown st') ∧ SoloQ st st'
      by_cases hro : v.isReadonly = true
      · rw [setTrap, if_pos hro]
        exact ⟨_, true, Or.inl rfl, SoloQ.heapWarns st st.heap (st.warns + 1)⟩
      · rw [setTrap, if_neg hro]
        cases hcl : classify (heapAt st v.tid) k with
        | error u =>
            simp only [hcl]
            exact ⟨st, true, Or.inr rfl, soloQRefl st⟩
        | ok ty =>
            simp only [hcl, eq_self_iff_true, if_true]
            have hq1 : SoloQ st (setHeap st v.tid (rawSet (heapAt st v.tid) k nv)) :=
              SoloQ.heapWarns st _ st.warns
            by_cases hg : setGuard (rawGet (heapAt st v.tid) k) nv = true
            · rw [if_pos hg]
              rcases triggerAux_solo re _ v.tid k ty nv (hq1.bOnly hb)
                  (by rw [hq1.active]; exact ha) with hres | hres
              · exact ⟨_, true, Or.inl hres, hq1⟩
              · exact ⟨_, true, Or.inr hres, hq1⟩
            · rw [if_neg hg]
              exact ⟨_, true, Or.inl rfl, hq1⟩
  | hasK v k =>
      intro st hb ha hl
      exact ⟨hasTrap st v k, true, Or.inl rfl, SoloQ.track st v.tid k ha hl⟩
  | iterK v =>
      intro st hb ha hl
      exact ⟨ownKeysTrap st v, true, Or.inl rfl,
        SoloQ.track st v.tid ITERATE_KEY ha hl⟩
  | delK v k =>
      intro st hb ha hl
      show ∃ st' b, (delTrap re st v k = Res.ok st' b ∨
        delTrap re st v k = Res.thrown st') ∧ SoloQ st st'
      by_cases hro : v.isReadonly = true
      · rw [delTrap, if_pos hro]
        exact ⟨_, true, Or.inl rfl, SoloQ.heapWarns st st.heap (st.warns + 1)⟩
      · rw [delTrap, if_neg hro]
        simp only []
        have hq1 : SoloQ st (setHeap st v.tid (rawDelete (heapAt st v.tid) k).1) :=
          SoloQ.heapWarns st _ st.warns
        by_cases hdel : (rawDelete (heapAt st v.tid) k).2 = true ∧
            rawHasOwn (heapAt st v.tid) k = true
        · rw [if_pos hdel]
          rcases triggerAux_solo re _ v.tid k OpType.deleteOp JSValue.undef
              (hq1.bOnly hb) (by rw [hq1.active]; exact ha) with hres | hres
          · exact ⟨_, true, Or.inl hres, hq1⟩
          · exact ⟨_, true, Or.inr hres, hq1⟩
        · rw [if_neg hdel]
          exact ⟨_, _, Or.inl rfl, hq1⟩
  | branch v k p q ihp ihq =>
      intro st hb ha hl
      have hqg := SoloQ.getTrap st v k ha hl
      have hb1 := hqg.bOnly hb
      have ha1 : activeEffect (VueBook.getTrap st v k) = some 0 := by
        rw [hqg.active]; exact ha
      have hl1 : 0 < (VueBook.getTrap st v k).effs.length := by
        rw [hqg.len]; exact hl
      have hstep : runProgAux re st (Prog.branch v k p q) =
          if truthy (getValue st v k) then
            runProgAux re (VueBook.getTrap st v k) p
          else runProgAux re (VueBook.getTrap st v k) q := rfl
      by_cases ht : truthy (getValue st v k) = true
      · rcases ihp (VueBook.getTrap st v k) hb1 ha1 hl1 with ⟨st2, b2, hr2, hq2⟩
        refine ⟨st2, b2, ?_, hqg.trans hq2⟩
        rw [hstep, if_pos ht]
        exact hr2
      · rcases ihq (VueBook.getTrap st v k) hb1 ha1 hl1 with ⟨st2, b2, hr2, hq2⟩
        refine ⟨st2, b2, ?_, hqg.trans hq2⟩
        rw [hstep, if_neg ht]
        exact hr2

/-! ## cleanup: characterization -/

theorem bucketOnly_update2 (st : St) (t : Nat) (k : JSKey)
    (g : List Nat → List Nat) (e0 : Nat)
    (hg : ∀ s, ∀ x ∈ g s, x ∈ s ∨ x = e0) (hb : bucketOnly st e0 = true) :
    bucketOnly
      { st with bucket := aupdate st.bucket t (fun dm => aupdate dm k g []) [] }
      e0 = true := by
  rw [bucketOnly_iff] at hb ⊢
  intro td htd ks hks x hx
  rcases mem_aupdate _ _ _ _ td htd with htd' | htd'
  · exact hb td htd' ks hks x hx
  · subst htd'
    simp only at hks
    have hdm : ∀ ks' ∈ (alookup st.bucket t).getD [], ∀ x' ∈ ks'.2, x' = e0 := by
      cases hdm : alookup st.bucket t with
      | none => simp
      | some dm =>
          intro ks' hks' x' hx'
          exact hb (t, dm) (alookup_mem hdm) ks' hks' x' hx'
    rcases mem_aupdate _ _ _ _ ks hks with hks' | hks'
    · exact hdm ks hks' x hx
    · subst hks'
      simp only at hx
      rcases hg _ x hx with hx' | hx'
      · cases hdm2 : alookup ((alookup st.bucket t).getD []) k with
        | none => rw [hdm2] at hx'; simp at hx'
        | some s =>
            rw [hdm2] at hx'
            exact hdm (k, s) (alookup_mem hdm2) x hx'
      · exact hx'

theorem bucketOnly_bucketRemove (st : St) (t : Nat) (k : JSKey) (e e0 : Nat)
    (hb : bucketOnly st e0 = true) :
    bucketOnly (bucketRemove st t k e) e0 = true := by
  refine bucketOnly_update2 st t k _ e0 ?_ hb
  intro s x hx
  exact Or.inl (List.mem_filter.mp hx).1

theorem removeAll_eq (e : Nat) :
    ∀ (l : List (Nat × JSKey)) (st : St),
      l.foldl (fun acc pr => bucketRemove acc pr.1 pr.2 e) st =
        { st with
          bucket := (l.foldl (fun acc pr => bucketRemove acc pr.1 pr.2 e) st).bucket } := by
  intro l
  induction l with
  | nil => intro st; rfl
  | cons pr rest ih =>
      intro st
      rw [List.foldl_cons, ih (bucketRemove st pr.1 pr.2 e)]
      rfl

theorem filter_ne_idem (l : List Nat) (e : Nat) :
    (l.filter (fun x => x ≠ e)).filter (fun x => x ≠ e) =
      l.filter (fun x => x ≠ e) := by
  apply List.filter_eq_self.mpr
  intro x hx
  exact (List.mem_filter.mp hx).2

theorem bucketSet_removeAll (e : Nat) :
    ∀ (l : List (Nat × JSKey)) (st : St) (t : Nat) (k : JSKey),
      bucketSet (l.foldl (fun acc pr => bucketRemove acc pr.1 pr.2 e) st) t k =
        if (t, k) ∈ l then (bucketSet st t k).filter (fun x => x ≠ e)
        else bucketSet st t k := by
  intro l
  induction l with
  | nil => intro st t k; simp
  | cons pr rest ih =>
      intro st t k
      rcases pr with ⟨pt, pk⟩
      rw [List.foldl_cons, ih]
      rw [bucketSet_bucketRemove]
      by_cases hr : (t, k) ∈ rest
      · rw [if_pos hr, if_pos (List.mem_cons_of_mem _ hr)]
        by_cases hp : t = pt ∧ k = pk
        · rw [if_pos hp]
          rcases hp with ⟨h1, h2⟩
          subst h1; subst h2
          exact filter_ne_idem _ e
        · rw [if_neg hp]
      · rw [if_neg hr]
        by_cases hp : t = pt ∧ k = pk
        · rw [if_pos hp]
          rcases hp with ⟨h1, h2⟩
          subst h1; subst h2
          rw [if_pos (List.mem_cons_self _ _)]
        · rw [if_neg hp]
          rw [if_neg (by
            intro hc
            rcases List.mem_cons.mp hc with hc | hc
            · exact hp ⟨congrArg Prod.fst hc, congrArg Prod.snd hc⟩
            · exact hr hc)]

theorem bucketOnly_removeAll (e e0 : Nat) :
    ∀ (l : List (Nat × JSKey)) (st : St), bucketOnly st e0 = true →
      bucketOnly (l.foldl (fun acc pr => bucketRemove acc pr.1 pr.2 e) st) e0 = true := by
  intro l
  induction l with
  | nil => intro st hb; exact hb
  | cons pr rest ih =>
      intro st hb
      rw [List.foldl_cons]
      exact ih _ (bucketOnly_bucketRemove st pr.1 pr.2 e e0 hb)

theorem cleanup_eq (st : St) (e : Nat) :
    cleanup st e = { st with
      bucket := ((effAt st e).deps.foldl
        (fun acc pr => bucketRemove acc pr.1 pr.2 e) st).bucket,
      effs := st.effs.set e { effAt st e with deps := [] } } := by
  simp only [cleanup]
  rw [removeAll_eq e]
  rfl

theorem deps_cleanup (st : St) (e : Nat) : (effAt (cleanup st e) e).deps = [] := by
  rw [cleanup_eq]
  simp only [effAt]
  rw [getD_set_self]
  by_cases h : e < st.effs.length
  · rw [if_pos h]
  · rw [if_neg h]
    rfl

theorem bucketSet_cleanup (st : St) (e : Nat) (t : Nat) (k : JSKey) :
    bucketSet (cleanup st e) t k =
      if (t, k) ∈ (effAt st e).deps then
        (bucketSet st t k).filter (fun x => x ≠ e)
      else bucketSet st t k := by
  rw [cleanup_eq]
  have : bucketSet { st with
      bucket := ((effAt st e).deps.foldl
        (fun acc pr => bucketRemove acc pr.1 pr.2 e) st).bucket,
      effs := st.effs.set e { effAt st e with deps := [] } } t k =
    bucketSet ((effAt st e).deps.foldl
        (fun acc pr => bucketRemove acc pr.1 pr.2 e) st) t k := rfl
  rw [this, bucketSet_removeAll]

theorem notMem_cleanup (st : St) (e : Nat) (hA : Agrees st e) (t : Nat)
    (k : JSKey) : e ∉ bucketSet (cleanup st e) t k := by
  rw [bucketSet_cleanup]
  by_cases hm : (t, k) ∈ (effAt st e).deps
  · rw [if_pos hm]
    intro hmem
    have := List.of_mem_filter hmem
    simp at this
  · rw [if_neg hm]
    intro hmem
    exact hm ((hA t k).mp hmem)

theorem Agrees_cleanup (st : St) (e : Nat) (hA : Agrees st e) :
    Agrees (cleanup st e) e := by
  intro t k
  rw [deps_cleanup]
  constructor
  · intro hmem; exact absurd hmem (notMem_cleanup st e hA t k)
  · intro hmem; simp at hmem

theorem bucketOnly_cleanup (st : St) (e e0 : Nat)
    (hb : bucketOnly st e0 = true) : bucketOnly (cleanup st e) e0 = true := by
  have h1 := bucketOnly_removeAll e e0 (effAt st e).deps st hb
  rw [bucketOnly_iff] at h1 ⊢
  rw [cleanup_eq]
  exact h1

/-! ## A full run of the solo subscriber -/

/-- One complete `effectFn()` call on the solo subscriber: it appears in
the log exactly once; nothing is scheduled; on normal completion the
stack is restored; the deps list afterwards is exactly the projection of
the trace segment recorded during this run; and the deps-bucket
agreement is preserved. -/
theorem runEffect_solo (fuel : Nat) (st : St)
    (hb : bucketOnly st 0 = true) (hl : 0 < st.effs.length) (hf : 0 < fuel) :
    ∃ st',
      ((runEffect fuel st 0 = Res.ok st' true ∧ st'.stack = st.stack) ∨
        runEffect fuel st 0 = Res.thrown st') ∧
      st'.execLog = st.execLog ++ [0] ∧
      st'.jobQueue = st.jobQueue ∧
      st'.isFlushing = st.isFlushing ∧
      st'.flushPending = st.flushPending ∧
      st'.effs.map effProj = st.effs.map effProj ∧
      bucketOnly st' 0 = true ∧
      (effAt st' 0).deps =
        (st'.trace.drop st.trace.length).map (fun x => (x.2.1, x.2.2)) ∧
      (Agrees st 0 → Agrees st' 0) := by
  cases fuel with
  | zero => exact absurd hf (by simp)
  | succ f =>
      have hstep : ∀ r,
          runProgAux (runEffect f) (pushRun (cleanup st 0) 0)
            (effAt (cleanup st 0) 0).body = r →
          runEffect (f + 1) st 0 =
            (match r with
             | Res.ok s _ => Res.ok { s with stack := s.stack.tail } true
             | r => r) := by
        intro r hr
        rw [runEffect, hr]
      set st2 : St := pushRun (cleanup st 0) 0 with hst2
      have hb2 : bucketOnly st2 0 = true := bucketOnly_cleanup st 0 0 hb
      have ha2 : activeEffect st2 = some 0 := rfl
      have hl2 : 0 < st2.effs.length := by
        show 0 < (cleanup st 0).effs.length
        rw [cleanup_eq]
        simpa using hl
      have hclfields : (cleanup st 0).execLog = st.execLog ∧
          (cleanup st 0).stack = st.stack ∧
          (cleanup st 0).jobQueue = st.jobQueue ∧
          (cleanup st 0).isFlushing = st.isFlushing ∧
          (cleanup st 0).flushPending = st.flushPending ∧
          (cleanup st 0).trace = st.trace := by
        rw [cleanup_eq]
        exact ⟨rfl, rfl, rfl, rfl, rfl, rfl⟩
      have heffsP : st2.effs.map effProj = st.effs.map effProj := by
        show (cleanup st 0).effs.map effProj = st.effs.map effProj
        rw [cleanup_eq]
        exact map_effProj_set st.effs (fun eo => { eo with deps := [] })
          (fun eo => rfl) 0
      have hdeps2 : (effAt st2 0).deps = [] := deps_cleanup st 0
      rcases runProgAux_solo (runEffect f) (effAt st2 0).body st2 hb2 ha2 hl2
        with ⟨st3, b3, hr3, hq3⟩
      rcases hq3.tr with ⟨tr, htr, hdep⟩
      have hdep3 : (effAt st3 0).deps = tr.map (fun x => (x.2.1, x.2.2)) := by
        rw [hdep, hdeps2]; rfl
      have htr3 : st3.trace = st.trace ++ tr := by
        rw [htr]
        show (cleanup st 0).trace ++ tr = st.trace ++ tr
        rw [hclfields.2.2.2.2.2]
      have hlog3 : st3.execLog = st.execLog ++ [0] := by
        rw [hq3.log]
        show (cleanup st 0).execLog ++ [0] = st.execLog ++ [0]
        rw [hclfields.1]
      have hagree3 : Agrees st 0 → Agrees st3 0 := by
        intro hA
        refine hq3.agrees ?_
        exact Agrees_cleanup st 0 hA
      have hdeq : (effAt st3 0).deps =
          (st3.trace.drop st.trace.length).map (fun x => (x.2.1, x.2.2)) := by
        rw [htr3, List.drop_left, hdep3]
      rcases hr3 with hr3 | hr3
      · refine ⟨{ st3 with stack := st3.stack.tail }, Or.inl ⟨hstep _ hr3, ?_⟩,
          hlog3, ?_, ?_, ?_, ?_, hq3.bOnly hb2, hdeq, hagree3⟩
        · show st3.stack.tail = st.stack
          rw [hq3.stk]
          exact hclfields.2.1
        · rw [hq3.jq]; exact hclfields.2.2.1
        · rw [hq3.flg]; exact hclfields.2.2.2.1
        · rw [hq3.fpd]; exact hclfields.2.2.2.2.1
        · rw [hq3.effsP]; exact heffsP
      · exact ⟨st3, Or.inr (hstep _ hr3), hlog3,
          by rw [hq3.jq]; exact hclfields.2.2.1,
          by rw [hq3.flg]; exact hclfields.2.2.2.1,
          by rw [hq3.fpd]; exact hclfields.2.2.2.2.1,
          by rw [hq3.effsP]; exact heffsP,
          hq3.bOnly hb2, hdeq, hagree3⟩

theorem depsAgree_to (st : St) (e : Nat) (h : depsAgree st e = true) :
    Agrees st e := by
  rw [depsAgree, Bool.and_eq_true] at h
  rcases h with ⟨h1, h2⟩
  rw [List.all_eq_true] at h1 h2
  intro t k
  constructor
  · intro hmem
    rw [bucketSet] at hmem
    cases hdm : alookup st.bucket t with
    | none => rw [hdm] at hmem; simp at hmem
    | some dm =>
        rw [hdm] at hmem
        simp only [Option.some_bind] at hmem
        cases hs : alookup dm k with
        | none => rw [hs] at hmem; simp at hmem
        | some s =>
            rw [hs] at hmem
            simp only [Option.getD_some] at hmem
            have ha := h2 (t, dm) (alookup_mem hdm)
            rw [List.all_eq_true] at ha
            have h3 := ha (k, s) (alookup_mem hs)
            simp at h3
            rcases h3 with h3 | h3
            · exact absurd hmem h3
            · exact h3
  · intro hmem
    have := h1 (t, k) hmem
    simpa using this

/-! ## Claim C8 -/

/-- C8 (as amended): when the computation is the sole subscriber in the
dependency store (so no other computation can reentrantly re-run it),
then after any completed run, its `deps` list is exactly the sequence of
`(target, key)` pairs tracked to it during that run (the trace suffix
recorded by the run), and it belongs to a dependency set in the bucket
exactly for those pairs — memberships recorded by earlier runs and not
repeated in this run have been removed. -/
theorem c8_solo_run_exact_deps (fuel : Nat) (st st' : St) (b : Bool)
    (hb : bucketOnly st 0 = true) (hA : depsAgree st 0 = true)
    (hl : 0 < st.effs.length)
    (hrun : runEffect fuel st 0 = Res.ok st' b) :
    (effAt st' 0).deps =
      (st'.trace.drop st.trace.length).map (fun x => (x.2.1, x.2.2)) ∧
    (∀ t k, 0 ∈ bucketSet st' t k ↔ (t, k) ∈ (effAt st' 0).deps) := by
  have hf : 0 < fuel := by
    cases fuel with
    | zero => rw [runEffect] at hrun; cases hrun
    | succ f => exact Nat.succ_pos f
  rcases runEffect_solo fuel st hb hl hf with
    ⟨st0, hres, _, _, _, _, _, _, hdeq, hagree⟩
  rcases hres with ⟨hok, _⟩ | hthrown
  · have heq := hok.symm.trans hrun
    injection heq with h1 h2
    subst h1
    exact ⟨hdeq, hagree (depsAgree_to st 0 hA)⟩
  · rw [hrun] at hthrown
    cases hthrown

/-- Witness for C8: a concrete solo effect reading one key; after its
run, deps is exactly the tracked pair and the store agrees. -/
def c8WitnessSt : St :=
  ⟨[⟨false, [(JSKey.str "foo", JSValue.num 1)], 0⟩],
   [⟨Prog.readK ⟨0, false, false⟩ (JSKey.str "foo"), false, false, []⟩],
   [], [], [], false, false, [], [], 0⟩

theorem c8_solo_run_exact_deps_witness :
    ∃ st' b, runEffect 2 c8WitnessSt 0 = Res.ok st' b ∧
      ((effAt st' 0).deps =
        (st'.trace.drop c8WitnessSt.trace.length).map (fun x => (x.2.1, x.2.2)) ∧
       (∀ t k, 0 ∈ bucketSet st' t k ↔ (t, k) ∈ (effAt st' 0).deps)) :=
  ⟨_, _, rfl,
    c8_solo_run_exact_deps 2 c8WitnessSt _ _ (by decide) (by decide)
      (by decide) rfl⟩

/-- The reentrancy scenario refuting C8 as stated.  Target 0 is a plain
object with keys `a p q x z`.  Effect 0 branches on `a`: when truthy it
reads `p`, writes `x`, reads `q`; when falsy it reads `z`.  Effect 1
reads `x` and writes `a := 0`.  The final write `a := 5` re-runs effect
0; its write to `x` re-runs effect 1 whose write to `a` reentrantly
re-runs effect 0 nested inside its own outer run; the nested cleanup
erases the membership for `p` recorded moments earlier by the outer run,
and the inner run (taking the falsy branch) never restores it. -/
def c8Obj : RawObj :=
  ⟨false, [(JSKey.str "a", JSValue.num 1), (JSKey.str "p", JSValue.num 0),
           (JSKey.str "q", JSValue.num 0), (JSKey.str "x", JSValue.num 0),
           (JSKey.str "z", JSValue.num 0)], 0⟩

def c8View : View := ⟨0, false, false⟩

def c8BodyA : Prog :=
  Prog.branch c8View (JSKey.str "a")
    (Prog.seq (Prog.readK c8View (JSKey.str "p"))
      (Prog.seq (Prog.writeK c8View (JSKey.str "x") (JSValue.num 2))
        (Prog.readK c8View (JSKey.str "q"))))
    (Prog.readK c8View (JSKey.str "z"))

def c8BodyB : Prog :=
  Prog.seq (Prog.readK c8View (JSKey.str "x"))
    (Prog.writeK c8View (JSKey.str "a") (JSValue.num 0))

def c8Setup : List Act :=
  [Act.reg c8BodyA false false,
   Act.reg c8BodyB false false,
   Act.run (Prog.writeK c8View (JSKey.str "x") (JSValue.num 0))]

/-- Counterexample to C8 as stated: during the final run of effect 0
(triggered by `a := 5` and completed last), the pair `(0, p)` is tracked
to effect 0 — the trace suffix of the final action records it — yet
after the run the pair is in neither its `deps` list nor any dependency
set: nested reentrant cleanup destroyed a membership of the very run in
progress, so the dependency-set list does not equal the pairs actually
read during that run. -/
theorem c8_counterexample :
    ∃ stA stB,
      stOf (runScript 20 (initSt [c8Obj]) c8Setup) = some stA ∧
      stOf (runScript 20 (initSt [c8Obj])
        (c8Setup ++ [Act.run (Prog.writeK c8View (JSKey.str "a") (JSValue.num 5))]))
          = some stB ∧
      (0, 0, JSKey.str "p") ∈ stB.trace.drop stA.trace.length ∧
      (0, JSKey.str "p") ∉ (effAt stB 0).deps ∧
      0 ∉ bucketSet stB 0 (JSKey.str "p") := by
  refine ⟨_, _, rfl, rfl, ?_, ?_, ?_⟩ <;> decide

/-! ## Claim C7 -/

theorem addToRun_zero_skip (st : St) :
    ∀ (l acc : List Nat), (∀ x ∈ l, x = 0) → 0 ∈ acc →
      addToRun st acc l = acc := by
  intro l
  induction l with
  | nil => intro acc _ _; rfl
  | cons x xs ih =>
      intro acc hall hacc
      have hx : x = 0 := hall x (List.mem_cons_self _ _)
      have hstep : addToRun st acc (x :: xs) =
          addToRun st (if keepEff st x ∧ x ∉ acc then acc ++ [x] else acc) xs := by
        simp [addToRun, List.foldl]
      rw [hstep, if_neg (fun hc => hc.2 (by rw [hx]; exact hacc)),
        ih acc (fun y hy => hall y (List.mem_cons_of_mem _ hy)) hacc]

theorem addToRun_zero (st : St) (l : List Nat) (hall : ∀ x ∈ l, x = 0)
    (hk : keepEff st 0 = true) :
    addToRun st [] l = if 0 ∈ l then [0] else [] := by
  cases l with
  | nil => rfl
  | cons x xs =>
      have hx : x = 0 := hall x (List.mem_cons_self _ _)
      rw [if_pos (by rw [hx]; exact List.mem_cons_self 0 xs)]
      have hstep : addToRun st [] (x :: xs) =
          addToRun st (if keepEff st x ∧ x ∉ ([] : List Nat) then [] ++ [x] else []) xs := by
        simp [addToRun, List.foldl]
      have h1 : addToRun st ([] ++ [x]) xs = [] ++ [x] :=
        addToRun_zero_skip st xs ([] ++ [x])
          (fun y hy => hall y (List.mem_cons_of_mem _ hy))
          (by rw [hx]; simp)
      rw [hstep, if_pos ⟨by rw [hx]; exact hk, by simp⟩, h1, hx]
      rfl

theorem lengthScan_zero (st : St) (nv : JSValue) :
    ∀ (dm : List (JSKey × List Nat)) (acc : List Nat),
      (∀ ks ∈ dm, ∃ s, ks.1 = JSKey.str s) →
      (∀ ks ∈ dm, ∀ x ∈ ks.2, x = 0) → 0 ∈ acc →
      lengthScan st dm nv acc = Except.ok acc := by
  intro dm
  induction dm with
  | nil => intro acc _ _ _; rfl
  | cons hd tl ih =>
      intro acc hstr hall hacc
      rcases hd with ⟨k, s⟩
      rcases hstr (k, s) (List.mem_cons_self _ _) with ⟨ks, hks⟩
      simp only at hks
      subst hks
      rcases keyGE_str_ok ks nv with ⟨b, hb⟩
      rw [lengthScan, hb]
      have hset : addToRun st acc s = acc :=
        addToRun_zero_skip st s acc
          (fun x hx => hall _ (List.mem_cons_self _ _) x hx) hacc
      have hrest := ih (if b = true then addToRun st acc s else acc)
        (fun ks' hm => hstr ks' (List.mem_cons_of_mem _ hm))
        (fun ks' hm x hx => hall ks' (List.mem_cons_of_mem _ hm) x hx)
        (by by_cases hbb : b = true
            · rw [if_pos hbb, hset]; exact hacc
            · rw [if_neg hbb]; exact hacc)
      show lengthScan st tl nv (if b = true then addToRun st acc s else acc)
        = Except.ok acc
      rw [hrest]
      by_cases hbb : b = true
      · rw [if_pos hbb, hset]
      · rw [if_neg hbb]

/-- With no active effect and the solo subscriber holding the `(t, k)`
subscription, `trigger` assembles exactly the one-element notify set,
provided the dependency map of `t` has no symbol key. -/
theorem buildToRun_solo (st : St) (t : Nat) (k : JSKey) (ty : OpType)
    (nv : JSValue) (hb : bucketOnly st 0 = true)
    (ha : activeEffect st = none) (hsub : 0 ∈ bucketSet st t k)
    (hsym : noSymKeys st t = true) :
    buildToRun st t k ty nv = some (Except.ok [0]) := by
  have hk0 : keepEff st 0 = true := by simp [keepEff, ha]
  cases hdm : alookup st.bucket t with
  | none =>
      rw [bucketSet, hdm] at hsub
      simp at hsub
  | some dm =>
      have hall : ∀ (k' : JSKey), ∀ x ∈ (alookup dm k').getD [], x = 0 := by
        intro k' x hx
        cases hl : alookup dm k' with
        | none => rw [hl] at hx; simp at hx
        | some l =>
            rw [hl] at hx
            exact bucketOnly_mem st 0 hb hdm (alookup_mem hl) hx
      have hmain : 0 ∈ (alookup dm k).getD [] := by
        rw [bucketSet, hdm] at hsub
        simpa using hsub
      have hacc1 : addToRun st [] ((alookup dm k).getD []) = [0] := by
        rw [addToRun_zero st _ (hall k) hk0, if_pos hmain]
      rw [buildToRun, hdm]
      simp only [hacc1]
      rw [show (if ty = OpType.addOp ∨ ty = OpType.deleteOp then
            addToRun st [0] ((alookup dm ITERATE_KEY).getD []) else [0]) = [0] by
          split
          · exact addToRun_zero_skip st _ [0] (hall ITERATE_KEY) (by simp)
          · rfl]
      rw [show (if ty = OpType.addOp ∧ (heapAt st t).isArr then
            addToRun st [0] ((alookup dm (JSKey.str "length")).getD []) else [0]) = [0] by
          split
          · exact addToRun_zero_skip st _ [0] (hall (JSKey.str "length")) (by simp)
          · rfl]
      by_cases harr : (heapAt st t).isArr ∧ k = JSKey.str "length"
      · rw [if_pos harr]
        have hstr : ∀ ks ∈ dm, ∃ s, ks.1 = JSKey.str s := by
          rw [noSymKeys, hdm] at hsym
          simp only [Option.getD_some, List.all_eq_true] at hsym
          intro ks hks
          have := hsym ks hks
          cases hk : ks.1 with
          | str s => exact ⟨s, rfl⟩
          | sym n => rw [hk] at this; simp at this
        have hallks : ∀ ks ∈ dm, ∀ x ∈ ks.2, x = 0 := by
          intro ks hks x hx
          exact bucketOnly_mem st 0 hb hdm hks hx
        rw [lengthScan_zero st nv dm [0] hstr hallks (by simp)]
      · rw [if_neg harr]

/-- C7 (as amended): when the computation is the only subscriber present
anywhere in the dependency store, has no scheduler, and the mutated
target's dependency map holds no symbol key, an external trigger (no
effect on the stack) begins exactly one execution of it and terminates —
the execution log grows by exactly that one entry, whether the body
completes normally or propagates the flagged truncation TypeError.  The
reentrancy guard `effectFn !== activeEffect` makes every trigger issued
while the computation runs a no-op, so a body that reads and writes its
own key cannot recurse. -/
theorem c7_solo_external_trigger (fuel : Nat) (st : St) (t : Nat) (k : JSKey)
    (ty : OpType) (nv : JSValue)
    (hb : bucketOnly st 0 = true) (hstack : st.stack = [])
    (hsub : 0 ∈ bucketSet st t k)
    (hsched : (effAt st 0).hasSched = false)
    (hsym : noSymKeys st t = true)
    (hl : 0 < st.effs.length) (hf : 0 < fuel) :
    logOf (trigger fuel st t k ty nv) = some (st.execLog ++ [0]) := by
  have ha : activeEffect st = none := by rw [activeEffect, hstack]; rfl
  rw [trigger, triggerAux, buildToRun_solo st t k ty nv hb ha hsub hsym]
  show logOf (runList (runEffect fuel) st [0]) = some (st.execLog ++ [0])
  rcases runEffect_solo fuel st hb hl hf with
    ⟨st', hres, hlog, _⟩
  have hns : ¬((effAt st 0).hasSched = true) := by rw [hsched]; simp
  have hrl : runList (runEffect fuel) st [0] =
      if (effAt st 0).hasSched then runList (runEffect fuel) (schedule st 0) []
      else
        match runEffect fuel st 0 with
        | Res.ok s _ => runList (runEffect fuel) s []
        | r => r := rfl
  rcases hres with ⟨hok, _⟩ | hthrown
  · rw [hrl, if_neg hns, hok]
    exact congrArg some hlog
  · rw [hrl, if_neg hns, hthrown]
    exact congrArg some hlog

/-- Witness for C7 at a concrete state: one registered effect whose body
reads and writes its own key, subscribed to `(0, k)`; an external
trigger runs it exactly once. -/
def c7WitnessSt : St :=
  ⟨[⟨false, [(JSKey.str "k", JSValue.num 1)], 0⟩],
   [⟨Prog.seq (Prog.readK ⟨0, false, false⟩ (JSKey.str "k"))
       (Prog.writeK ⟨0, false, false⟩ (JSKey.str "k") (JSValue.num 7)),
     false, false, [(0, JSKey.str "k")]⟩],
   [(0, [(JSKey.str "k", [0])])], [], [], false, false, [], [], 0⟩

theorem c7_solo_external_trigger_witness :
    logOf (trigger 3 c7WitnessSt 0 (JSKey.str "k") OpType.setOp (JSValue.num 5))
      = some (c7WitnessSt.execLog ++ [0]) :=
  c7_solo_external_trigger 3 c7WitnessSt 0 (JSKey.str "k") OpType.setOp
    (JSValue.num 5) (by decide) (by decide) (by decide) (by decide)
    (by decide) (by decide) (by decide)

def c7Obj : RawObj := ⟨false, [(JSKey.str "k", JSValue.num 1)], 0⟩

def c7Body : Prog :=
  Prog.seq (Prog.readK ⟨0, false, false⟩ (JSKey.str "k"))
    (Prog.writeK ⟨0, false, false⟩ (JSKey.str "k") (JSValue.num 7))

/-- Counterexample to C7 as stated.  Both effects read and write the
same `(target, key)`.  Registrations log `[0, 1]`.  The single external
write `k := 5` then logs `[0, 1, 1]`: effect 0 runs, its write to `k`
re-runs effect 1 nested (effect 0 being excluded as active, but not
effect 1), and the external trigger's own snapshot then runs effect 1 a
second time — two executions of effect 1 from one external trigger,
refuting `exactly one execution of that computation`. -/
theorem c7_counterexample :
    logOf (runScript 20 (initSt [c7Obj])
      [Act.reg c7Body false false,
       Act.reg c7Body false false,
       Act.run (Prog.writeK ⟨0, false, false⟩ (JSKey.str "k") (JSValue.num 5))])
      = some [0, 1, 0, 1, 1] := by
  decide

/-! ## Claim C1 -/

/-- C1 (as amended): through a read-only view (deep or shallow),
property reads never touch the Dependency Store — the `get` trap returns
the state unchanged — but membership tests (`has`) and key enumeration
(`ownKeys`) track unconditionally: they are the bare `track` calls,
identical to those of a mutable view, regardless of the read-only
flag. -/
theorem c1_readonly_get_never_tracks (st : St) (v : View) (k : JSKey)
    (hro : v.isReadonly = true) :
    getTrap st v k = st ∧
    hasTrap st v k = track st v.tid k ∧
    ownKeysTrap st v = track st v.tid ITERATE_KEY := by
  refine ⟨?_, rfl, rfl⟩
  rw [getTrap]
  by_cases h1 : k = JSKey.str "raw"
  · rw [if_pos h1]
  · rw [if_neg h1, if_pos hro]

theorem c1_readonly_get_never_tracks_witness :
    (⟨0, false, true⟩ : View).isReadonly = true ∧
    getTrap (initSt [⟨false, [], 0⟩]) ⟨0, false, true⟩ (JSKey.str "foo")
      = initSt [⟨false, [], 0⟩] :=
  ⟨by decide,
    (c1_readonly_get_never_tracks (initSt [⟨false, [], 0⟩]) ⟨0, false, true⟩
      (JSKey.str "foo") (by decide)).1⟩

/-- Counterexample to C1 as stated: an effect whose body performs a
membership test through a deep read-only view.  After its registration
run, the Dependency Store holds the computation under the tested key of
the read-only view's target — the store did not stay empty. -/
theorem c1_counterexample :
    ∃ st, stOf (runScript 3 (initSt [⟨false, [(JSKey.str "foo", JSValue.num 1)], 0⟩])
        [Act.reg (Prog.hasK ⟨0, false, true⟩ (JSKey.str "foo")) false false])
      = some st ∧
    bucketSet st 0 (JSKey.str "foo") = [0] := by
  refine ⟨_, rfl, ?_⟩
  decide

/-! ## Claim C2 -/

/-- The guard of the set trap fails exactly on same-value writes: with a
single not-a-number value, `JSValue` equality is same-value equality
treating not-a-number as equal to itself. -/
theorem setGuard_eq_false_iff (o n : JSValue) : setGuard o n = false ↔ o = n := by
  cases o <;> cases n <;> simp [setGuard, strictEq]

/-- C2: a write through a mutable view (with the view itself as
receiver) is a no-notification event — the state after the trap is
exactly the state after the plain assignment, with `trigger` never
invoked — if and only if the old and the new value are the same value
under same-value equality (assigning the current value, or not-a-number
over not-a-number, notifies nobody); any write of a non-identical value
invokes `trigger` on the assigned state. -/
theorem c2_no_notification_iff_same_value (re : St → Nat → Res) (st : St)
    (v : View) (k : JSKey) (nv : JSValue) (ty : OpType)
    (hro : v.isReadonly = false)
    (hcl : classify (heapAt st v.tid) k = Except.ok ty) :
    (rawGet (heapAt st v.tid) k = nv →
      setTrap re st v k nv v.tid =
        Res.ok (setHeap st v.tid (rawSet (heapAt st v.tid) k nv)) true) ∧
    (rawGet (heapAt st v.tid) k ≠ nv →
      setTrap re st v k nv v.tid =
        triggerAux re (setHeap st v.tid (rawSet (heapAt st v.tid) k nv))
          v.tid k ty nv) := by
  constructor
  · intro heq
    rw [setTrap, if_neg (by rw [hro]; simp)]
    simp only [hcl, eq_self_iff_true, if_true]
    rw [if_neg (by
      rw [(setGuard_eq_false_iff _ _).mpr heq]
      simp)]
  · intro hne
    rw [setTrap, if_neg (by rw [hro]; simp)]
    simp only [hcl, eq_self_iff_true, if_true]
    rw [if_pos (by
      cases hg : setGuard (rawGet (heapAt st v.tid) k) nv with
      | false => exact absurd ((setGuard_eq_false_iff _ _).mp hg) hne
      | true => rfl)]

/-- Witness for C2: writing not-a-number over not-a-number is a pure
assignment with no notification. -/
def c2WitnessSt : St := initSt [⟨false, [(JSKey.str "foo", JSValue.nan)], 0⟩]

theorem c2_no_notification_iff_same_value_witness :
    setTrap (runEffect 1) c2WitnessSt ⟨0, false, false⟩ (JSKey.str "foo")
        JSValue.nan 0 =
      Res.ok (setHeap c2WitnessSt 0
        (rawSet (heapAt c2WitnessSt 0) (JSKey.str "foo") JSValue.nan)) true :=
  (c2_no_notification_iff_same_value (runEffect 1) c2WitnessSt
    ⟨0, false, false⟩ (JSKey.str "foo") JSValue.nan OpType.setOp
    (by decide) rfl).1 (by decide)

/-! ## Claim C6 -/

/-- C6: attempting to set or delete through a read-only view changes
nothing but the warning count: the heap, the store and the execution log
are untouched, no trigger is invoked, nothing throws, and the trap
reports `true` to the language runtime. -/
theorem c6_readonly_mutation_noop (re : St → Nat → Res) (st : St) (v : View)
    (k : JSKey) (nv : JSValue) (recv : Nat) (hro : v.isReadonly = true) :
    setTrap re st v k nv recv = Res.ok { st with warns := st.warns + 1 } true ∧
    delTrap re st v k = Res.ok { st with warns := st.warns + 1 } true := by
  constructor
  · rw [setTrap, if_pos hro]
  · rw [delTrap, if_pos hro]

theorem c6_readonly_mutation_noop_witness :
    setTrap (runEffect 1) (initSt [⟨false, [(JSKey.str "foo", JSValue.num 1)], 0⟩])
        ⟨0, false, true⟩ (JSKey.str "foo") (JSValue.num 9) 0 =
      Res.ok { initSt [⟨false, [(JSKey.str "foo", JSValue.num 1)], 0⟩] with
        warns := (initSt [⟨false, [(JSKey.str "foo", JSValue.num 1)], 0⟩]).warns + 1 } true :=
  (c6_readonly_mutation_noop (runEffect 1)
    (initSt [⟨false, [(JSKey.str "foo", JSValue.num 1)], 0⟩])
    ⟨0, false, true⟩ (JSKey.str "foo") (JSValue.num 9) 0 (by decide)).1

/-! ## Claim C9 -/

/-- C9: the set trap notifies only when the receiver's raw object is the
target being mutated.  When the receiver unwraps to a different raw
object (a write reaching the trap through a prototype chain), the
assignment is performed — on the receiver, as `Reflect.set` does — but
`trigger` is never invoked: the trap returns the assigned state
directly.  When the receiver is the target and the value guard holds,
the trap is exactly a `trigger` call on the assigned state. -/
theorem c9_receiver_guard (re : St → Nat → Res) (st : St) (v : View)
    (k : JSKey) (nv : JSValue) (recv : Nat) (ty : OpType)
    (hro : v.isReadonly = false)
    (hcl : classify (heapAt st v.tid) k = Except.ok ty) :
    (recv ≠ v.tid →
      setTrap re st v k nv recv =
        Res.ok (setHeap st recv (rawSet (heapAt st recv) k nv)) true) ∧
    (recv = v.tid → setGuard (rawGet (heapAt st v.tid) k) nv = true →
      setTrap re st v k nv recv =
        triggerAux re (setHeap st recv (rawSet (heapAt st recv) k nv))
          v.tid k ty nv) := by
  constructor
  · intro hne
    rw [setTrap, if_neg (by rw [hro]; simp)]
    simp only [hcl]
    rw [if_neg hne]
  · intro heq hg
    rw [setTrap, if_neg (by rw [hro]; simp)]
    simp only [hcl]
    rw [if_pos heq, if_pos hg]

/-- Witness for C9: a write whose receiver is raw object 1 while the
trap's target is raw object 0 assigns on object 1 and triggers
nothing. -/
def c9WitnessSt : St :=
  initSt [⟨false, [(JSKey.str "bar", JSValue.num 1)], 0⟩, ⟨false, [], 0⟩]

theorem c9_receiver_guard_witness :
    setTrap (runEffect 1) c9WitnessSt ⟨0, false, false⟩ (JSKey.str "bar")
        (JSValue.num 2) 1 =
      Res.ok (setHeap c9WitnessSt 1
        (rawSet (heapAt c9WitnessSt 1) (JSKey.str "bar") (JSValue.num 2))) true :=
  (c9_receiver_guard (runEffect 1) c9WitnessSt ⟨0, false, false⟩
    (JSKey.str "bar") (JSValue.num 2) 1 OpType.setOp (by decide) rfl).1
    (by decide)

/-! ## Claim C5 -/

/-- C5: a computation subscribed to the Reserved Structural Key of a
plain (non-array) mutable object is placed in the notify set by any
structural-add or structural-delete trigger; a trigger classified SET
(same-shape value update) leaves it out, provided it is not also a
direct subscriber of the updated key. -/
theorem c5_enumeration_notify (st : St) (t : Nat) (k : JSKey) (nv : JSValue)
    (e : Nat) (harr : (heapAt st t).isArr = false)
    (hiter : e ∈ bucketSet st t ITERATE_KEY)
    (hkeep : keepEff st e = true) :
    (∀ ty, ty = OpType.addOp ∨ ty = OpType.deleteOp →
      ∃ l, buildToRun st t k ty nv = some (Except.ok l) ∧ e ∈ l) ∧
    (e ∉ bucketSet st t k →
      ∃ l, buildToRun st t k OpType.setOp nv = some (Except.ok l) ∧ e ∉ l) := by
  cases hdm : alookup st.bucket t with
  | none =>
      rw [bucketSet, hdm] at hiter
      simp at hiter
  | some dm =>
      have hiter' : e ∈ (alookup dm ITERATE_KEY).getD [] := by
        rw [bucketSet, hdm] at hiter
        simpa using hiter
      have hskip : ¬((heapAt st t).isArr = true ∧ k = JSKey.str "length") := by
        rw [harr]; simp
      constructor
      · intro ty hty
        have harr2 : ¬(ty = OpType.addOp ∧ (heapAt st t).isArr = true) := by
          rw [harr]; simp
        have heval : buildToRun st t k ty nv = some (Except.ok
            (addToRun st (addToRun st [] ((alookup dm k).getD []))
              ((alookup dm ITERATE_KEY).getD []))) := by
          simp only [buildToRun, hdm]
          rw [if_pos hty, if_neg harr2, if_neg hskip]
        exact ⟨_, heval, (mem_addToRun st e _ _).mpr (Or.inr ⟨hiter', hkeep⟩)⟩
      · intro hnot
        have hnot' : e ∉ (alookup dm k).getD [] := by
          rw [bucketSet, hdm] at hnot
          simpa using hnot
        have heval : buildToRun st t k OpType.setOp nv = some (Except.ok
            (addToRun st [] ((alookup dm k).getD []))) := by
          simp only [buildToRun, hdm]
          rw [if_neg hskip, if_neg (by decide :
              ¬(OpType.setOp = OpType.addOp ∨ OpType.setOp = OpType.deleteOp)),
            if_neg (by simp :
              ¬(OpType.setOp = OpType.addOp ∧ (heapAt st t).isArr = true))]
        refine ⟨_, heval, ?_⟩
        intro hmem
        rcases (mem_addToRun st e _ _).mp hmem with hmem' | hmem'
        · simp at hmem'
        · exact hnot' hmem'.1

/-- Witness for C5 at a concrete store: effect 1 subscribed to the
structural key of object 0; it is notified by an ADD and not by a
SET on key `foo`. -/
def c5WitnessSt : St :=
  { initSt [⟨false, [(JSKey.str "foo", JSValue.num 1)], 0⟩] with
    effs := [defaultEffect, defaultEffect],
    bucket := [(0, [(ITERATE_KEY, [1]), (JSKey.str "foo", [0])])] }

theorem c5_enumeration_notify_witness :
    (∀ ty, ty = OpType.addOp ∨ ty = OpType.deleteOp →
      ∃ l, buildToRun c5WitnessSt 0 (JSKey.str "foo") ty JSValue.undef
          = some (Except.ok l) ∧ 1 ∈ l) ∧
    ((1 : Nat) ∉ bucketSet c5WitnessSt 0 (JSKey.str "foo") →
      ∃ l, buildToRun c5WitnessSt 0 (JSKey.str "foo") OpType.setOp JSValue.undef
          = some (Except.ok l) ∧ 1 ∉ l) :=
  c5_enumeration_notify c5WitnessSt 0 (JSKey.str "foo") JSValue.undef 1
    (by decide) (by decide) (by decide)

/-! ## Claim C3 -/

/-- C3 (as amended): provided the dependency map of the array holds no
symbol key (otherwise the truncation scan throws a TypeError before
anything runs — see the C3 counterexample and claim C10), assigning to
`length` builds a duplicate-free notify set containing every computation
subscribed to a numeric-string key whose value is at least the newly
assigned length, except the currently active one; and in the concrete
truncation demo (a computation reading `arr[0]`, then `arr.length = 0`)
that computation is executed exactly once — the log gains exactly one
entry beyond the registration run. -/
theorem c3_truncation_notify :
    (∀ (st : St) (t : Nat) (ty : OpType) (n : Int) (e : Nat) (s : String)
        (i : Int),
      (heapAt st t).isArr = true →
      noSymKeys st t = true →
      e ∈ bucketSet st t (JSKey.str s) →
      strToNum s = some i →
      n ≤ i →
      keepEff st e = true →
      ∃ l, buildToRun st t (JSKey.str "length") ty (JSValue.num n)
          = some (Except.ok l) ∧ e ∈ l ∧ l.Nodup) ∧
    logOf (runScript 10 (initSt [⟨true, [(JSKey.str "0", JSValue.str "foo")], 1⟩])
      [Act.reg (Prog.readK ⟨0, false, false⟩ (JSKey.str "0")) false false,
       Act.run (Prog.writeK ⟨0, false, false⟩ (JSKey.str "length") (JSValue.num 0))])
      = some [0, 0] := by
  constructor
  · intro st t ty n e s i harr hsym hsub hidx hge hkeep
    cases hdm : alookup st.bucket t with
    | none => rw [bucketSet, hdm] at hsub; simp at hsub
    | some dm =>
        have hstr : ∀ ks ∈ dm, ∃ s', ks.1 = JSKey.str s' := by
          rw [noSymKeys, hdm] at hsym
          simp only [Option.getD_some, List.all_eq_true] at hsym
          intro ks hks
          have := hsym ks hks
          cases hk : ks.1 with
          | str s' => exact ⟨s', rfl⟩
          | sym m => rw [hk] at this; simp at this
        have hsub' : e ∈ (alookup dm (JSKey.str s)).getD [] := by
          rw [bucketSet, hdm] at hsub
          simpa using hsub
        obtain ⟨s0, hs0, hes0⟩ : ∃ s0, alookup dm (JSKey.str s) = some s0 ∧ e ∈ s0 := by
          cases hl : alookup dm (JSKey.str s) with
          | none => rw [hl] at hsub'; simp at hsub'
          | some s0 => rw [hl] at hsub'; exact ⟨s0, rfl, by simpa using hsub'⟩
        have hge' : keyGE (JSKey.str s) (JSValue.num n) = Except.ok true := by
          show (match strToNum s, toNum (JSValue.num n) with
              | some a, some b => Except.ok (decide (b ≤ a))
              | _, _ => Except.ok false) = Except.ok true
          rw [hidx]
          show Except.ok (decide (n ≤ i)) = Except.ok true
          rw [decide_eq_true hge]
        have hnodup : ∀ acc : List Nat, acc.Nodup →
            (if ty = OpType.addOp ∧ (heapAt st t).isArr = true then
              addToRun st acc ((alookup dm (JSKey.str "length")).getD [])
             else acc).Nodup := by
          intro acc hacc
          split
          · exact addToRun_nodup st _ acc hacc
          · exact hacc
        have ha1 : (addToRun st [] ((alookup dm (JSKey.str "length")).getD [])).Nodup :=
          addToRun_nodup st _ [] List.nodup_nil
        have ha2 : (if ty = OpType.addOp ∨ ty = OpType.deleteOp then
            addToRun st (addToRun st [] ((alookup dm (JSKey.str "length")).getD []))
              ((alookup dm ITERATE_KEY).getD [])
          else addToRun st [] ((alookup dm (JSKey.str "length")).getD [])).Nodup := by
          split
          · exact addToRun_nodup st _ _ ha1
          · exact ha1
        obtain ⟨l, hl⟩ := lengthScan_ok_of_str st (JSValue.num n) dm _ hstr
        refine ⟨l, ?_, ?_, ?_⟩
        · simp only [buildToRun, hdm]
          rw [if_pos (show (heapAt st t).isArr = true ∧ True from ⟨harr, trivial⟩)]
          rw [hl]
        · exact lengthScan_entry st e (JSValue.num n) dm _ l (JSKey.str s) s0
            (alookup_mem hs0) hge' hes0 hkeep hl
        · exact lengthScan_nodup st (JSValue.num n) dm _ l (hnodup _ ha2) hl
  · decide

/-- Witness for the universal part of the amended C3, at a concrete
store: effect 1 subscribed to index key 0 of array target 0 is in the
notify set of `length := 0`. -/
def c3WitnessSt : St :=
  { initSt [⟨true, [(JSKey.str "0", JSValue.num 3)], 1⟩] with
    effs := [defaultEffect, defaultEffect],
    bucket := [(0, [(JSKey.str "0", [1])])] }

theorem c3_truncation_notify_witness :
    ∃ l, buildToRun c3WitnessSt 0 (JSKey.str "length") OpType.addOp
        (JSValue.num 0) = some (Except.ok l) ∧ 1 ∈ l ∧ l.Nodup :=
  c3_truncation_notify.1 c3WitnessSt 0 OpType.addOp 0 1 "0" 0
    (by decide) (by decide) (by decide) (by decide) (by decide) (by decide)

/-- Counterexample to C3 as stated: when, in addition to the computation
subscribed to index 0, another computation enumerated the array's keys
(a Reserved Structural Key subscription), the truncation scan of
`arr.length = 0` hits the symbol key, throws, and the index-0 subscriber
never runs: the log keeps only the two registration entries. -/
theorem c3_counterexample :
    isThrown (runScript 10 (initSt [⟨true, [(JSKey.str "0", JSValue.str "foo")], 1⟩])
      [Act.reg (Prog.readK ⟨0, false, false⟩ (JSKey.str "0")) false false,
       Act.reg (Prog.iterK ⟨0, false, false⟩) false false,
       Act.run (Prog.writeK ⟨0, false, false⟩ (JSKey.str "length") (JSValue.num 0))])
        = true ∧
    logOf (runScript 10 (initSt [⟨true, [(JSKey.str "0", JSValue.str "foo")], 1⟩])
      [Act.reg (Prog.readK ⟨0, false, false⟩ (JSKey.str "0")) false false,
       Act.reg (Prog.iterK ⟨0, false, false⟩) false false,
       Act.run (Prog.writeK ⟨0, false, false⟩ (JSKey.str "length") (JSValue.num 0))])
        = some [0, 1] := by
  constructor <;> decide

/-! ## Claim C10 -/

/-- C10: assigning to the `length` of a reactive array whose dependency
map holds a Reserved Structural Key subscription does NOT complete
without throwing: the truncation scan applies the order comparison
`key >= newVal` to the reserved symbol key, which in JavaScript raises a
TypeError (symbols cannot be converted to numbers).  Here: an effect
enumerates the array's keys, then `arr.length = 0` propagates the
modelled TypeError, and no subscriber runs. -/
theorem c10_length_assignment_throws :
    isThrown (runScript 10 (initSt [⟨true, [(JSKey.str "0", JSValue.num 3)], 1⟩])
      [Act.reg (Prog.iterK ⟨0, false, false⟩) false false,
       Act.run (Prog.writeK ⟨0, false, false⟩ (JSKey.str "length") (JSValue.num 0))])
      = true := by
  decide

/-! ## Claim C4 -/

/-- Fields untouched by a run that performs no writes and no deletes:
only the store, the deps lists and the trace can change. -/
structure Quiet (st st' : St) : Prop where
  log : st'.execLog = st.execLog
  stk : st'.stack = st.stack
  jq : st'.jobQueue = st.jobQueue
  hp : st'.heap = st.heap
  flg : st'.isFlushing = st.isFlushing
  fpd : st'.flushPending = st.flushPending
  effsP : st'.effs.map effProj = st.effs.map effProj
  wrn : st'.warns = st.warns

theorem quietRefl (st : St) : Quiet st st :=
  ⟨rfl, rfl, rfl, rfl, rfl, rfl, rfl, rfl⟩

theorem Quiet.seqQ {s1 s2 s3 : St} (h1 : Quiet s1 s2) (h2 : Quiet s2 s3) :
    Quiet s1 s3 :=
  ⟨h2.log.trans h1.log, h2.stk.trans h1.stk, h2.jq.trans h1.jq,
   h2.hp.trans h1.hp, h2.flg.trans h1.flg, h2.fpd.trans h1.fpd,
   h2.effsP.trans h1.effsP, h2.wrn.trans h1.wrn⟩

theorem Quiet.ofTrackQ (st : St) (t : Nat) (k : JSKey) :
    Quiet st (VueBook.track st t k) := by
  cases h : activeEffect st with
  | none =>
      have heq : VueBook.track st t k = st := by rw [VueBook.track, h]
      rw [heq]
      exact quietRefl st
  | some e =>
      rw [track_eq st t k e h]
      refine ⟨rfl, rfl, rfl, rfl, rfl, rfl, ?_, rfl⟩
      exact map_effProj_set st.effs
        (fun eo => { eo with deps := eo.deps ++ [(t, k)] }) (fun eo => rfl) e

theorem Quiet.ofGetTrapQ (st : St) (v : View) (k : JSKey) :
    Quiet st (VueBook.getTrap st v k) := by
  rw [VueBook.getTrap]
  by_cases h1 : k = JSKey.str "raw"
  · rw [if_pos h1]; exact quietRefl st
  · rw [if_neg h1]
    by_cases h2 : v.isReadonly
    · rw [if_pos h2]; exact quietRefl st
    · rw [if_neg h2]; exact Quiet.ofTrackQ st v.tid k

/-- A body with no writes and no deletes only tracks: it completes
normally, runs nothing, schedules nothing, and leaves every field but
the store, the deps and the trace unchanged. -/
theorem runProgAux_writeFree (re : St → Nat → Res) :
    ∀ (p : Prog) (st : St), writeFree p = true →
      ∃ st', runProgAux re st p = Res.ok st' true ∧ Quiet st st' := by
  intro p
  induction p with
  | skip => intro st _; exact ⟨st, rfl, quietRefl st⟩
  | seq p q ihp ihq =>
      intro st hwf
      rw [writeFree, Bool.and_eq_true] at hwf
      rcases ihp st hwf.1 with ⟨st1, hr1, hq1⟩
      rcases ihq st1 hwf.2 with ⟨st2, hr2, hq2⟩
      refine ⟨st2, ?_, hq1.seqQ hq2⟩
      rw [runProgAux, hr1]
      exact hr2
  | readK v k =>
      intro st _
      exact ⟨VueBook.getTrap st v k, rfl, Quiet.ofGetTrapQ st v k⟩
  | writeK v k nv => intro st hwf; cases hwf
  | hasK v k =>
      intro st _
      exact ⟨hasTrap st v k, rfl, Quiet.ofTrackQ st v.tid k⟩
  | iterK v =>
      intro st _
      exact ⟨ownKeysTrap st v, rfl, Quiet.ofTrackQ st v.tid ITERATE_KEY⟩
  | delK v k => intro st hwf; cases hwf
  | branch v k p q ihp ihq =>
      intro st hwf
      rw [writeFree, Bool.and_eq_true] at hwf
      have hstep : runProgAux re st (Prog.branch v k p q) =
          if truthy (getValue st v k) then
            runProgAux re (VueBook.getTrap st v k) p
          else runProgAux re (VueBook.getTrap st v k) q := rfl
      by_cases ht : truthy (getValue st v k) = true
      · rcases ihp (VueBook.getTrap st v k) hwf.1 with ⟨st2, hr2, hq2⟩
        refine ⟨st2, ?_, (Quiet.ofGetTrapQ st v k).seqQ hq2⟩
        rw [hstep, if_pos ht]
        exact hr2
      · rcases ihq (VueBook.getTrap st v k) hwf.2 with ⟨st2, hr2, hq2⟩
        refine ⟨st2, ?_, (Quiet.ofGetTrapQ st v k).seqQ hq2⟩
        rw [hstep, if_neg ht]
        exact hr2

theorem writeFree_effAt (st : St) (e : Nat)
    (hwf : ∀ eo ∈ st.effs, writeFree eo.body = true) :
    writeFree (effAt st e).body = true := by
  cases h : st.effs[e]? with
  | none => simp [effAt, List.getD, List.get?_eq_getElem?, h, defaultEffect, writeFree]
  | some eo =>
      have hmem : eo ∈ st.effs := List.getElem?_mem h
      have heo : effAt st e = eo := by
        simp [effAt, List.getD, List.get?_eq_getElem?, h]
      rw [heo]
      exact hwf eo hmem

theorem writeFreeAll_of_effsP {s1 s2 : St}
    (h : s2.effs.map effProj = s1.effs.map effProj)
    (hwf : ∀ eo ∈ s1.effs, writeFree eo.body = true) :
    ∀ eo ∈ s2.effs, writeFree eo.body = true := by
  intro eo hmem
  have h1 : effProj eo ∈ s2.effs.map effProj := List.mem_map_of_mem _ hmem
  rw [h] at h1
  rcases List.mem_map.mp h1 with ⟨eo2, hmem2, hproj⟩
  have hbody : eo2.body = eo.body := congrArg Prod.fst hproj
  rw [← hbody]
  exact hwf eo2 hmem2

/-- One run of any registered effect, in a system whose bodies are all
write-free: it completes, appends exactly itself to the log, and leaves
the queue, the stack, the heap and the flags unchanged. -/
theorem runEffect_writeFree (fuel : Nat) (st : St) (e : Nat)
    (hwf : ∀ eo ∈ st.effs, writeFree eo.body = true) (hf : 0 < fuel) :
    ∃ st', runEffect fuel st e = Res.ok st' true ∧
      st'.execLog = st.execLog ++ [e] ∧ st'.stack = st.stack ∧
      st'.jobQueue = st.jobQueue ∧ st'.heap = st.heap ∧
      st'.isFlushing = st.isFlushing ∧ st'.flushPending = st.flushPending ∧
      st'.effs.map effProj = st.effs.map effProj ∧ st'.warns = st.warns := by
  cases fuel with
  | zero => exact absurd hf (by simp)
  | succ f =>
      have hstep : ∀ r,
          runProgAux (runEffect f) (pushRun (cleanup st e) e)
            (effAt (cleanup st e) e).body = r →
          runEffect (f + 1) st e =
            (match r with
             | Res.ok s _ => Res.ok { s with stack := s.stack.tail } true
             | r => r) := by
        intro r hr
        rw [runEffect, hr]
      have hclfields : (cleanup st e).execLog = st.execLog ∧
          (cleanup st e).stack = st.stack ∧
          (cleanup st e).jobQueue = st.jobQueue ∧
          (cleanup st e).heap = st.heap ∧
          (cleanup st e).isFlushing = st.isFlushing ∧
          (cleanup st e).flushPending = st.flushPending ∧
          (cleanup st e).warns = st.warns := by
        rw [cleanup_eq]
        exact ⟨rfl, rfl, rfl, rfl, rfl, rfl, rfl⟩
      have heffsP : (cleanup st e).effs.map effProj = st.effs.map effProj := by
        rw [cleanup_eq]
        exact map_effProj_set st.effs (fun eo => { eo with deps := [] })
          (fun eo => rfl) e
      have hbody : (effAt (cleanup st e) e).body = (effAt st e).body := by
        rw [cleanup_eq]
        simp only [effAt]
        rw [getD_set_self]
        by_cases hlt : e < st.effs.length
        · rw [if_pos hlt]
        · rw [if_neg hlt]
          rw [List.getD_eq_default _ _ (le_of_not_lt hlt)]
      have hwfb : writeFree (effAt (cleanup st e) e).body = true := by
        rw [hbody]
        exact writeFree_effAt st e hwf
      rcases runProgAux_writeFree (runEffect f) (effAt (cleanup st e) e).body
        (pushRun (cleanup st e) e) hwfb with ⟨st3, hr3, hq3⟩
      refine ⟨{ st3 with stack := st3.stack.tail }, hstep _ hr3, ?_, ?_, ?_, ?_,
        ?_, ?_, ?_, ?_⟩
      · show st3.execLog = st.execLog ++ [e]
        rw [hq3.log]
        show (cleanup st e).execLog ++ [e] = st.execLog ++ [e]
        rw [hclfields.1]
      · show st3.stack.tail = st.stack
        rw [hq3.stk]
        exact hclfields.2.1
      · show st3.jobQueue = st.jobQueue
        rw [hq3.jq]
        exact hclfields.2.2.1
      · show st3.heap = st.heap
        rw [hq3.hp]
        exact hclfields.2.2.2.1
      · show st3.isFlushing = st.isFlushing
        rw [hq3.flg]
        exact hclfields.2.2.2.2.1
      · show st3.flushPending = st.flushPending
        rw [hq3.fpd]
        exact hclfields.2.2.2.2.2.1
      · show st3.effs.map effProj = st.effs.map effProj
        rw [hq3.effsP]
        exact heffsP
      · show st3.warns = st.warns
        rw [hq3.wrn]
        exact hclfields.2.2.2.2.2.2

theorem drop_getD_cons :
    ∀ (q : List Nat) (i : Nat), i < q.length →
      q.drop i = q.getD i 0 :: q.drop (i + 1) := by
  intro q
  induction q with
  | nil => intro i h; simp at h
  | cons x xs ih =>
      intro i h
      cases i with
      | zero => simp [List.getD]
      | succ i =>
          simp only [List.drop_succ_cons, List.getD_cons_succ]
          exact ih i (by simpa using h)

/-- The live walk of `jobQueue.forEach(job => job())` in a write-free
system: every entry of the queue, in order, is executed exactly once;
the queue itself, the flags, the heap and the stack are untouched. -/
theorem flushLoop_writeFree :
    ∀ (fuel : Nat) (st : St) (i : Nat),
      (∀ eo ∈ st.effs, writeFree eo.body = true) →
      st.jobQueue.length - i < fuel →
      ∃ st', flushLoop fuel st i = Res.ok st' true ∧
        st'.execLog = st.execLog ++ st.jobQueue.drop i ∧
        st'.jobQueue = st.jobQueue ∧
        st'.isFlushing = st.isFlushing ∧
        st'.flushPending = st.flushPending ∧
        st'.heap = st.heap ∧ st'.stack = st.stack ∧
        st'.effs.map effProj = st.effs.map effProj ∧ st'.warns = st.warns := by
  intro fuel
  induction fuel with
  | zero => intro st i _ hlt; exact absurd hlt (Nat.not_lt_zero _)
  | succ f ih =>
      intro st i hwf hlt
      by_cases hi : i < st.jobQueue.length
      · have hf0 : 0 < f := by omega
        rcases runEffect_writeFree f st (st.jobQueue.getD i 0) hwf hf0 with
          ⟨st1, hrun, hlog1, hstk1, hjq1, hheap1, hflg1, hfpd1, heffsP1, hwrn1⟩
        rcases ih st1 (i + 1) (writeFreeAll_of_effsP heffsP1 hwf)
          (by rw [hjq1]; omega) with
          ⟨st2, hrec, hlog2, hjq2, hflg2, hfpd2, hheap2, hstk2, heffsP2, hwrn2⟩
        have hstep : flushLoop (f + 1) st i =
            (match runEffect f st (st.jobQueue.getD i 0) with
             | Res.ok s _ => flushLoop f s (i + 1)
             | r => r) := by
          rw [flushLoop, if_pos hi]
        refine ⟨st2, ?_, ?_, ?_, ?_, ?_, ?_, ?_, ?_, ?_⟩
        · rw [hstep, hrun]
          exact hrec
        · rw [hlog2, hlog1, hjq1, List.append_assoc, List.singleton_append,
            ← drop_getD_cons st.jobQueue i hi]
        · rw [hjq2, hjq1]
        · rw [hflg2, hflg1]
        · rw [hfpd2, hfpd1]
        · rw [hheap2, hheap1]
        · rw [hstk2, hstk1]
        · rw [heffsP2, heffsP1]
        · rw [hwrn2, hwrn1]
      · have hstep : flushLoop (f + 1) st i = Res.ok st true := by
          rw [flushLoop, if_neg hi]
        refine ⟨st, hstep, ?_, rfl, rfl, rfl, rfl, rfl, rfl, rfl⟩
        rw [List.drop_eq_nil_of_le (le_of_not_lt hi), List.append_nil]

/-- C4 (as amended): delivering the queued flush in a system whose
bodies are write-free (so nothing re-schedules during the flush)
executes every computation in the pending set exactly once, in order —
the log grows by exactly the queue — and afterwards the double-
scheduling guard is cleared but the pending set is NOT cleared: it still
holds every previously scheduled computation, which will therefore run
again in the next flush. -/
theorem c4_flush_runs_pending_guard_cleared_set_kept (fuel : Nat) (st : St)
    (hwf : st.effs.all (fun eo => writeFree eo.body) = true)
    (hpend : st.flushPending = true)
    (hfuel : st.jobQueue.length < fuel) :
    ∃ st', drain fuel st = Res.ok st' true ∧
      st'.execLog = st.execLog ++ st.jobQueue ∧
      st'.jobQueue = st.jobQueue ∧
      st'.isFlushing = false ∧
      st'.flushPending = false := by
  rw [drain, if_pos hpend]
  have hwf' : ∀ eo ∈ ({ st with flushPending := false } : St).effs,
      writeFree eo.body = true := by
    rw [List.all_eq_true] at hwf
    exact hwf
  rcases flushLoop_writeFree fuel { st with flushPending := false } 0 hwf'
    (by simpa using hfuel) with
    ⟨st1, hrun, hlog, hjq, _, hfpd, _, _, _, _⟩
  rw [hrun]
  refine ⟨{ st1 with isFlushing := false }, rfl, ?_, ?_, rfl, ?_⟩
  · show st1.execLog = st.execLog ++ st.jobQueue
    rw [hlog]
    simp
  · show st1.jobQueue = st.jobQueue
    rw [hjq]
  · show st1.flushPending = false
    rw [hfpd]

/-- Witness for C4 at a concrete pending state: one scheduler-driven
effect waiting in the queue; the flush runs it once, clears the guard,
and leaves the queue with the effect still in it. -/
def c4WitnessSt : St :=
  { initSt [⟨false, [(JSKey.str "foo", JSValue.num 1)], 0⟩] with
    effs := [⟨Prog.readK ⟨0, false, false⟩ (JSKey.str "foo"), true, false,
      [(0, JSKey.str "foo")]⟩],
    bucket := [(0, [(JSKey.str "foo", [0])])],
    jobQueue := [0], isFlushing := true, flushPending := true,
    execLog := [0] }

theorem c4_flush_witness :
    ∃ st', drain 2 c4WitnessSt = Res.ok st' true ∧
      st'.execLog = c4WitnessSt.execLog ++ c4WitnessSt.jobQueue ∧
      st'.jobQueue = c4WitnessSt.jobQueue ∧
      st'.isFlushing = false ∧
      st'.flushPending = false :=
  c4_flush_runs_pending_guard_cleared_set_kept 2 c4WitnessSt (by decide)
    (by decide) (by decide)

/-- Counterexample to C4 as stated: two scheduler-driven effects.  The
first write schedules effect 0 and the flush runs it; the claim says the
pending set is then cleared.  It is not: the second write schedules only
effect 1, yet the second flush runs effect 0 again (log `[0,1,0,0,1]`:
two registrations, flush one runs 0, flush two runs 0 and 1), and after
both flushes the pending set still holds both effects. -/
theorem c4_counterexample :
    ∃ st, stOf (runScript 30
        (initSt [⟨false, [(JSKey.str "foo", JSValue.num 1),
                          (JSKey.str "bar", JSValue.num 1)], 0⟩])
        [Act.reg (Prog.readK ⟨0, false, false⟩ (JSKey.str "foo")) true false,
         Act.reg (Prog.readK ⟨0, false, false⟩ (JSKey.str "bar")) true false,
         Act.run (Prog.writeK ⟨0, false, false⟩ (JSKey.str "foo") (JSValue.num 2)),
         Act.microtasks,
         Act.run (Prog.writeK ⟨0, false, false⟩ (JSKey.str "bar") (JSValue.num 7)),
         Act.microtasks]) = some st ∧
      st.execLog = [0, 1, 0, 0, 1] ∧
      st.jobQueue = [0, 1] ∧
      st.isFlushing = false := by
  refine ⟨_, rfl, ?_, ?_, ?_⟩ <;> decide

end VueBook
